import Mathlib

set_option maxHeartbeats 1000000

namespace CalcProc

/-!
Shallow embedding of `src/sheets.py` (month-cell parser and month-row
reconciler).

* A sheet column is a `List String`: the element at index 0 is row 1 (the
  header row), matching `ws.col_values(1)` with 1-based row numbers.
* Python string order (used by `sorted` and the comparison `m > target`)
  is code-point lexicographic; it is modelled by `strLt` below.
* The regex classes `\d`, `\s`, `\w`, and `str.isdigit`/`str.lower`, are
  modelled on their ASCII meaning (`\w` additionally keeps every
  code point at or above 128, matching the source comment that
  diacritics-like characters are kept as word characters).
-/

/-- Value of one decimal digit character. -/
def digitVal (c : Char) : Nat := c.toNat - 48

/-- Python `int(...)` applied to a string of decimal digit characters. -/
def digitsToNat (l : List Char) : Nat :=
  l.foldl (fun n c => 10 * n + digitVal c) 0

/-- The decimal digit character for `d < 10`. -/
def digitChar (d : Nat) : Char := Char.ofNat (48 + d)

/-- Fuel-driven helper for `natDigits` (structural recursion so that the
kernel can evaluate it). -/
def natDigitsAux : Nat → Nat → List Char
  | 0, _ => []
  | fuel + 1, n =>
    if n < 10 then [digitChar n]
    else natDigitsAux fuel (n / 10) ++ [digitChar (n % 10)]

/-- Decimal representation of a natural number, most significant digit
first (the digit list of Python `str(n)` / `"%d" % n`). -/
def natDigits (n : Nat) : List Char := natDigitsAux (n + 1) n

/-- Python `f"{n:0wd}"`: decimal digits left-padded with zeros to width `w`. -/
def zfill (w : Nat) (n : Nat) : List Char :=
  List.replicate (w - (natDigits n).length) '0' ++ natDigits n

/-- Python `<` on strings (code-point lexicographic), on char lists. -/
def strLt : List Char → List Char → Bool
  | [], [] => false
  | [], _ :: _ => true
  | _ :: _, [] => false
  | a :: as, b :: bs =>
    if a.toNat < b.toNat then true
    else if b.toNat < a.toNat then false
    else strLt as bs

/-- Python `<` on strings. -/
def strLtS (a b : String) : Bool := strLt a.data b.data

/-- Python `str.strip()` on a char list. -/
def pyStrip (l : List Char) : List Char :=
  ((l.dropWhile Char.isWhitespace).reverse.dropWhile Char.isWhitespace).reverse

/-- Helper for `splitWs`: accumulates the current word (reversed). -/
def wordsAux : List Char → List Char → List (List Char)
  | [], acc => if acc.isEmpty then [] else [acc.reverse]
  | c :: cs, acc =>
    if c.isWhitespace then
      if acc.isEmpty then wordsAux cs [] else acc.reverse :: wordsAux cs []
    else wordsAux cs (c :: acc)

/-- Python `re.split(r"\s+", s)` on a string with no leading or trailing
whitespace: the maximal whitespace-free words, in order. -/
def splitWs (l : List Char) : List (List Char) := wordsAux l []

/-- Python `\w` (word character): ASCII alphanumeric or underscore; code
points at or above 128 are treated as word characters, following the
source comment that diacritics-like characters are kept by `\w`. -/
def isWordChar (c : Char) : Bool := c.isAlphanum || c = '_' || 128 ≤ c.toNat

/-- The `_MONTHS` table from `src/sheets.py`, in source order.  Python
dict literals keep the last binding of a repeated key; every repeated key
in the source binds the same value, so first-match lookup below agrees
with the Python dict. -/
def MONTHS : List (String × Nat) :=
  [("ianuarie", 1), ("ian", 1),
   ("februarie", 2), ("feb", 2),
   ("martie", 3), ("mar", 3),
   ("aprilie", 4), ("apr", 4),
   ("mai", 5),
   ("iunie", 6), ("iun", 6),
   ("iulie", 7), ("iul", 7),
   ("august", 8), ("aug", 8),
   ("septembrie", 9), ("sept", 9), ("sep", 9),
   ("octombrie", 10), ("oct", 10),
   ("noiembrie", 11), ("noi", 11), ("nov", 11),
   ("decembrie", 12), ("dec", 12),
   ("january", 1), ("jan", 1),
   ("february", 2),
   ("march", 3),
   ("april", 4),
   ("may", 5),
   ("june", 6), ("jun", 6),
   ("july", 7), ("jul", 7),
   ("september", 9),
   ("october", 10),
   ("november", 11),
   ("december", 12)]

/-- First-match association lookup (agrees with the Python `_MONTHS` dict;
see `MONTHS`). -/
def tableLookup : List (String × Nat) → String → Option Nat
  | [], _ => none
  | (k, v) :: rest, s => if s = k then some v else tableLookup rest s

/-- `re.match(r"^(\d{4})-(\d{2})-(\d{2})", s)`: on success the source
returns `f"{m.group(1)}-{m.group(2)}"`. -/
def matchISO : List Char → Option (List Char)
  | a :: b :: c :: d :: e :: f :: g :: h :: i :: j :: _ =>
    if a.isDigit && b.isDigit && c.isDigit && d.isDigit && e = '-' &&
       f.isDigit && g.isDigit && h = '-' && i.isDigit && j.isDigit then
      some [a, b, c, d, '-', f, g]
    else none
  | _ => none

/-- One regex group `(\d{1,2})` followed by a literal `/`, with the
backtracking behaviour of Python `re`: two digits are consumed when the
third character is `/`; otherwise a single digit followed by `/`.
Returns the numeric value and the remainder after the `/`. -/
def slashNum : List Char → Option (Nat × List Char)
  | c1 :: c2 :: rest =>
    if c1.isDigit then
      if c2.isDigit then
        match rest with
        | '/' :: r2 => some (digitsToNat [c1, c2], r2)
        | _ => none
      else if c2 = '/' then some (digitsToNat [c1], rest)
      else none
    else none
  | _ => none

/-- The final group `(\d{4})` of the slash pattern (prefix match: trailing
characters are ignored). -/
def year4 : List Char → Option Nat
  | a :: b :: c :: d :: _ =>
    if a.isDigit && b.isDigit && c.isDigit && d.isDigit then
      some (digitsToNat [a, b, c, d])
    else none
  | _ => none

/-- `re.match(r"^(\d{1,2})/(\d{1,2})/(\d{4})", s)` plus the dd/mm vs mm/dd
heuristic of the source; on success returns `f"{yy:04d}-{mm:02d}"`. -/
def matchSlash (t : List Char) : Option (List Char) :=
  match slashNum t with
  | none => none
  | some (a, t1) =>
    match slashNum t1 with
    | none => none
    | some (b, t2) =>
      match year4 t2 with
      | none => none
      | some yy =>
        let mm := if a > 12 then b else if b > 12 then a else a
        some (zfill 4 yy ++ '-' :: zfill 2 mm)

/-- The textual month-name pattern: lowercase the (already stripped)
input, split on whitespace, require at least two tokens with an all-digit
last token; the preceding tokens joined and stripped of non-word
characters must be a key of `MONTHS`.  On success the source returns
`f"{year:04d}-{mm:02d}"`. -/
def matchTextual (t : List Char) : Option (List Char) :=
  let parts := splitWs (t.map Char.toLower)
  if 2 ≤ parts.length then
    match parts.getLast? with
    | none => none
    | some lastTok =>
      if lastTok ≠ [] && lastTok.all Char.isDigit then
        match tableLookup MONTHS (String.mk ((parts.dropLast.flatten).filter isWordChar)) with
        | none => none
        | some mm => some (zfill 4 (digitsToNat lastTok) ++ '-' :: zfill 2 mm)
      else none
  else none

/-- `re.match(r"^(\d{4})-(\d{2})$", s)`: on success the source returns `s`
unchanged. -/
def matchYM (t : List Char) : Option (List Char) :=
  match t with
  | [a, b, c, d, e, f, g] =>
    if a.isDigit && b.isDigit && c.isDigit && d.isDigit && e = '-' &&
       f.isDigit && g.isDigit then some t
    else none
  | _ => none

/-- The body of `parse_month_cell_to_yyyymm` after the strip and the
emptiness test, trying the four patterns in source order. -/
def parseStripped (t : List Char) : Option (List Char) :=
  match matchISO t with
  | some r => some r
  | none =>
    match matchSlash t with
    | some r => some r
    | none =>
      match matchTextual t with
      | some r => some r
      | none => matchYM t

/-- `parse_month_cell_to_yyyymm` on a char list: strip, fail on empty,
then try the four patterns in order. -/
def parseCell (s : List Char) : Option (List Char) :=
  let t := pyStrip s
  if t.isEmpty then none else parseStripped t

/-- `parse_month_cell_to_yyyymm` from `src/sheets.py` (string level). -/
def parse_month_cell_to_yyyymm (s : String) : Option String :=
  (parseCell s.data).map (fun l => String.mk l)

/-!  The month-row reconciler.  A Python `Dict[str, int]` is modelled as an
association list in insertion order: writing to a present key updates it
in place, writing to a fresh key appends. -/

/-- Python `out[k] = v` on a dict modelled as an insertion-ordered
association list. -/
def dictInsert (d : List (String × Nat)) (k : String) (v : Nat) :
    List (String × Nat) :=
  if d.any (fun p => p.1 = k) then
    d.map (fun p => if p.1 = k then (k, v) else p)
  else d ++ [(k, v)]

/-- Python `d.get(k)`. -/
def dictLookup (d : List (String × Nat)) (k : String) : Option Nat :=
  (d.find? (fun p => p.1 = k)).map (fun p => p.2)

/-- The scan shared by `build_month_row_index` and `ensure_month_rows`:
starting at row number `i`, collect `(row, month)` for every cell that
parses. -/
def collectAux : Nat → List String → List (Nat × String)
  | _, [] => []
  | i, v :: rest =>
    match parse_month_cell_to_yyyymm v with
    | some m => (i, m) :: collectAux (i + 1) rest
    | none => collectAux (i + 1) rest

/-- The `existing` list of `ensure_month_rows`: all `(row, yyyymm)` pairs
of the column in row order, skipping the header row 1. -/
def collectExisting (col : List String) : List (Nat × String) :=
  collectAux 2 (col.drop 1)

/-- The dict-building scan of `build_month_row_index`, starting at row `i`
with accumulated dict `d`. -/
def buildAux : Nat → List (String × Nat) → List String → List (String × Nat)
  | _, d, [] => d
  | i, d, v :: rest =>
    buildAux (i + 1)
      (match parse_month_cell_to_yyyymm v with
       | some m => dictInsert d m i
       | none => d) rest

/-- `build_month_row_index` from `src/sheets.py`: scan column A, skip the
header row, map each recognized month to its row (later rows overwrite). -/
def build_month_row_index (col : List String) : List (String × Nat) :=
  buildAux 2 [] (col.drop 1)

/-- `ws.insert_row(values, index=pos)`: the new value becomes row `pos`
and every row at or below `pos` shifts down by one.  Positions beyond the
current extent are padded with empty cells, as in a spreadsheet grid. -/
def insertRowAt (col : List String) (pos : Nat) (v : String) : List String :=
  col.take (pos - 1) ++ List.replicate (pos - 1 - col.length) "" ++
    v :: col.drop (pos - 1)

/-- Stable insertion into a list sorted by month (Python `list.sort` /
`sorted` are stable; `le` is the non-strict month order). -/
def insMonth (x : Nat × String) : List (Nat × String) → List (Nat × String)
  | [] => [x]
  | y :: ys => if strLtS y.2 x.2 then y :: insMonth x ys else x :: y :: ys

/-- Stable sort by the month component, modelling
`sorted(existing, key=lambda x: x[1])` / `existing_sorted.sort(key=...)`. -/
def sortByMonth : List (Nat × String) → List (Nat × String)
  | [] => []
  | x :: xs => insMonth x (sortByMonth xs)

/-- Stable insertion for plain strings (Python `sorted` on a string list). -/
def insStr (x : String) : List String → List String
  | [] => [x]
  | y :: ys => if strLtS y x then y :: insStr x ys else x :: y :: ys

/-- Stable sort of a string list by Python string order. -/
def sortStr : List String → List String
  | [] => []
  | x :: xs => insStr x (sortStr xs)

/-- Helper modelling Python `set(months)` followed by `sorted`: first
occurrences in order, then sorted. -/
def dedup (seen : List String) : List String → List String
  | [] => []
  | x :: xs => if seen.contains x then dedup seen xs else x :: dedup (x :: seen) xs

/-- `sorted(set(months))`. -/
def sortedDedup (months : List String) : List String :=
  sortStr (dedup [] months)

/-- `insert_row_index_for_month` from `ensure_month_rows`: the row of the
first working-list entry whose month strictly exceeds the target, else one
past the last known row, else the first data row 2. -/
def insert_row_index_for_month (es : List (Nat × String)) (target : String) :
    Nat :=
  match es.find? (fun p => strLtS target p.2) with
  | some p => p.1
  | none =>
    match es.getLast? with
    | some p => p.1 + 1
    | none => 2

/-- The bookkeeping shift of `ensure_month_rows`: rows at or below the
insertion point move down by one. -/
def shiftEntry (pos : Nat) (p : Nat × String) : Nat × String :=
  if pos ≤ p.1 then (p.1 + 1, p.2) else p

/-- The insertion loop of `ensure_month_rows`: for each missing month,
insert its row in the sheet and update the in-memory working list (shift,
append, re-sort).  Returns the final column and working list. -/
def ensureLoop :
    List String → List (Nat × String) → List String →
      List String × List (Nat × String)
  | col, es, [] => (col, es)
  | col, es, m :: rest =>
    let pos := insert_row_index_for_month es m
    let col' := insertRowAt col pos (m ++ "-01")
    let es' := sortByMonth ((es.map (shiftEntry pos)) ++ [(pos, m)])
    ensureLoop col' es' rest

/-- The `missing` list of `ensure_month_rows`: target months (sorted,
deduplicated) that no existing row parses to. -/
def missingOf (col : List String) (months : List String) : List String :=
  (sortedDedup months).filter
    (fun m => !(collectExisting col).any (fun p => p.2 = m))

/-- `ensure_month_rows` from `src/sheets.py`.  The first component is the
column after all insertions (the sheet state); the second is the returned
index, rebuilt from the sheet by the final `build_month_row_index` re-read. -/
def ensure_month_rows (col : List String) (months : List String) :
    List String × List (String × Nat) :=
  if months.isEmpty then (col, build_month_row_index col)
  else
    let missing := missingOf col months
    if missing.isEmpty then (col, build_month_row_index col)
    else
      let r := ensureLoop col (sortByMonth (collectExisting col)) missing
      (r.1, build_month_row_index r.1)

/-! ### Basic lemmas: characters, digits, decimal formatting -/

theorem toNat_of_isDigit {c : Char} (h : c.isDigit = true) :
    48 ≤ c.toNat ∧ c.toNat ≤ 57 := by
  simp [Char.isDigit] at h
  exact ⟨h.1, h.2⟩

theorem isDigit_of_toNat {c : Char} (h1 : 48 ≤ c.toNat) (h2 : c.toNat ≤ 57) :
    c.isDigit = true := by
  simp [Char.isDigit]
  exact ⟨h1, h2⟩

theorem char_eq_of_toNat_eq {a b : Char} (h : a.toNat = b.toNat) : a = b :=
  Char.eq_of_val_eq (UInt32.ext h)

theorem not_whitespace_of_isDigit {c : Char} (h : c.isDigit = true) :
    c.isWhitespace = false := by
  by_cases h1 : c = ' '
  · subst h1; exact absurd h (by decide)
  by_cases h2 : c = '\t'
  · subst h2; exact absurd h (by decide)
  by_cases h3 : c = '\r'
  · subst h3; exact absurd h (by decide)
  by_cases h4 : c = '\n'
  · subst h4; exact absurd h (by decide)
  simp [Char.isWhitespace, h1, h2, h3, h4]

theorem digitChar_isDigit {d : Nat} (hd : d < 10) :
    (digitChar d).isDigit = true := by
  interval_cases d <;> decide

theorem digitChar_toNat {d : Nat} (hd : d < 10) : (digitChar d).toNat = 48 + d := by
  interval_cases d <;> decide

theorem natDigitsAux_congr : ∀ n f1 f2, n < f1 → n < f2 →
    natDigitsAux f1 n = natDigitsAux f2 n := by
  intro n
  induction n using Nat.strong_induction_on with
  | _ n ih =>
    intro f1 f2 h1 h2
    match f1, f2, h1, h2 with
    | k1 + 1, k2 + 1, h1, h2 =>
      simp only [natDigitsAux]
      by_cases h10 : n < 10
      · simp [h10]
      · simp only [h10, if_false]
        have hrec : n / 10 < n := Nat.div_lt_self (by omega) (by omega)
        rw [ih (n / 10) hrec k1 k2 (by omega) (by omega)]

theorem natDigits_of_lt {n : Nat} (h : n < 10) : natDigits n = [digitChar n] := by
  rw [natDigits]
  simp [natDigitsAux, h]

theorem natDigits_of_ge {n : Nat} (h : ¬ n < 10) :
    natDigits n = natDigits (n / 10) ++ [digitChar (n % 10)] := by
  rw [natDigits, natDigits]
  have hstep : natDigitsAux (n + 1) n =
      if n < 10 then [digitChar n]
      else natDigitsAux n (n / 10) ++ [digitChar (n % 10)] := rfl
  rw [hstep, if_neg h]
  have hrec : n / 10 < n := Nat.div_lt_self (by omega) (by omega)
  rw [natDigitsAux_congr (n / 10) n (n / 10 + 1) (by omega) (by omega)]

theorem natDigits_all_isDigit (n : Nat) : (natDigits n).all Char.isDigit = true := by
  induction n using Nat.strong_induction_on with
  | _ n ih =>
    by_cases h : n < 10
    · rw [natDigits_of_lt h]
      simp [digitChar_isDigit h]
    · rw [natDigits_of_ge h]
      simp only [List.all_append, Bool.and_eq_true]
      refine ⟨ih (n / 10) (Nat.div_lt_self (by omega) (by omega)), ?_⟩
      simp [digitChar_isDigit (Nat.mod_lt n (show 0 < 10 by omega))]

theorem natDigits_ne_nil (n : Nat) : natDigits n ≠ [] := by
  by_cases h : n < 10
  · rw [natDigits_of_lt h]; simp
  · rw [natDigits_of_ge h]; simp

theorem natDigits_length_le : ∀ k n, n < 10 ^ (k + 1) →
    (natDigits n).length ≤ k + 1 := by
  intro k
  induction k with
  | zero =>
    intro n h
    rw [natDigits_of_lt (by omega)]
    simp
  | succ k ih =>
    intro n h
    by_cases h10 : n < 10
    · rw [natDigits_of_lt h10]; simp
    · rw [natDigits_of_ge h10]
      have hd : n / 10 < 10 ^ (k + 1) := by
        rw [Nat.div_lt_iff_lt_mul (by omega)]
        calc n < 10 ^ (k + 1 + 1) := h
        _ = 10 ^ (k + 1) * 10 := by ring
      have := ih (n / 10) hd
      simp only [List.length_append, List.length_cons, List.length_nil]
      omega

theorem digitsToNat_foldl (a : Nat) (l : List Char) :
    l.foldl (fun n c => 10 * n + digitVal c) a =
      a * 10 ^ l.length + digitsToNat l := by
  induction l generalizing a with
  | nil => simp [digitsToNat]
  | cons c cs ih =>
    show cs.foldl _ (10 * a + digitVal c) = _
    rw [ih]
    have : digitsToNat (c :: cs) = (digitVal c) * 10 ^ cs.length + digitsToNat cs := by
      show cs.foldl _ (10 * 0 + digitVal c) = _
      rw [ih]
      ring_nf
    rw [this]
    simp [List.length_cons]
    ring

theorem digitsToNat_cons (c : Char) (cs : List Char) :
    digitsToNat (c :: cs) = digitVal c * 10 ^ cs.length + digitsToNat cs := by
  show cs.foldl _ (10 * 0 + digitVal c) = _
  rw [digitsToNat_foldl]
  ring_nf

theorem digitsToNat_append (l1 l2 : List Char) :
    digitsToNat (l1 ++ l2) = digitsToNat l1 * 10 ^ l2.length + digitsToNat l2 := by
  show (l1 ++ l2).foldl _ 0 = _
  rw [List.foldl_append, digitsToNat_foldl]
  rfl

theorem digitsToNat_natDigits (n : Nat) : digitsToNat (natDigits n) = n := by
  induction n using Nat.strong_induction_on with
  | _ n ih =>
    by_cases h : n < 10
    · rw [natDigits_of_lt h]
      simp [digitsToNat, digitVal, digitChar_toNat h]
    · rw [natDigits_of_ge h, digitsToNat_append]
      rw [ih (n / 10) (Nat.div_lt_self (by omega) (by omega))]
      have h10 : n % 10 < 10 := Nat.mod_lt n (by omega)
      simp [digitsToNat, digitVal, digitChar_toNat h10]
      omega

theorem digitsToNat_lt (l : List Char) (h : l.all Char.isDigit = true) :
    digitsToNat l < 10 ^ l.length := by
  induction l with
  | nil => simp [digitsToNat]
  | cons c cs ih =>
    simp only [List.all_cons, Bool.and_eq_true] at h
    have h9 : digitVal c ≤ 9 := by
      have := toNat_of_isDigit h.1
      simp [digitVal]
      omega
    have := ih h.2
    rw [digitsToNat_cons]
    simp only [List.length_cons, pow_succ]
    calc digitVal c * 10 ^ cs.length + digitsToNat cs
        ≤ 9 * 10 ^ cs.length + digitsToNat cs := by
          exact Nat.add_le_add_right (Nat.mul_le_mul_right _ h9) _
      _ < 10 ^ cs.length * 10 := by omega

theorem digitsToNat_replicate_zero (z : Nat) (l : List Char) :
    digitsToNat (List.replicate z '0' ++ l) = digitsToNat l := by
  induction z with
  | zero => simp
  | succ z ih =>
    rw [List.replicate_succ, List.cons_append]
    show (List.replicate z '0' ++ l).foldl _ (10 * 0 + digitVal '0') = _
    have : 10 * 0 + digitVal '0' = 0 := by decide
    rw [this]
    exact ih

theorem zfill_all_isDigit (w n : Nat) : (zfill w n).all Char.isDigit = true := by
  simp only [zfill, List.all_append, Bool.and_eq_true]
  refine ⟨?_, natDigits_all_isDigit n⟩
  simp only [List.all_eq_true]
  intro c hc
  rw [List.eq_of_mem_replicate hc]
  decide

theorem zfill_length (w n : Nat) :
    (zfill w n).length = max w (natDigits n).length := by
  simp only [zfill, List.length_append, List.length_replicate]
  omega

theorem digitsToNat_zfill (w n : Nat) : digitsToNat (zfill w n) = n := by
  rw [zfill, digitsToNat_replicate_zero, digitsToNat_natDigits]

theorem zfill_length_of_lt {w n : Nat} (hw : 1 ≤ w) (h : n < 10 ^ w) :
    (zfill w n).length = w := by
  rw [zfill_length]
  have : (natDigits n).length ≤ w := by
    have := natDigits_length_le (w - 1) n (by
      have : w - 1 + 1 = w := by omega
      rw [this]; exact h)
    omega
  omega

theorem exists_two_of_length {l : List Char} (h : l.length = 2) :
    ∃ a b, l = [a, b] := by
  match l, h with
  | [a, b], _ => exact ⟨a, b, rfl⟩

theorem exists_four_of_length {l : List Char} (h : l.length = 4) :
    ∃ a b c d, l = [a, b, c, d] := by
  match l, h with
  | [a, b, c, d], _ => exact ⟨a, b, c, d, rfl⟩

/-! ### Lemmas about the string order `strLt` -/

theorem strLt_irrefl : ∀ l, strLt l l = false
  | [] => rfl
  | a :: as => by
    simp only [strLt, lt_irrefl, if_false]
    exact strLt_irrefl as

theorem strLt_trans : ∀ a b c, strLt a b = true → strLt b c = true →
    strLt a c = true
  | [], [], _, h1, _ => Bool.noConfusion h1
  | [], _ :: _, [], _, h2 => Bool.noConfusion h2
  | [], _ :: _, _ :: _, _, _ => rfl
  | _ :: _, [], _, h1, _ => Bool.noConfusion h1
  | _ :: _, _ :: _, [], _, h2 => Bool.noConfusion h2
  | a :: as, b :: bs, c :: cs, h1, h2 => by
    simp only [strLt] at h1 h2 ⊢
    by_cases hab : a.toNat < b.toNat
    · by_cases hbc : b.toNat < c.toNat
      · simp [show a.toNat < c.toNat by omega]
      · rw [if_neg hbc] at h2
        by_cases hcb : c.toNat < b.toNat
        · rw [if_pos hcb] at h2
          exact Bool.noConfusion h2
        · simp [show a.toNat < c.toNat by omega]
    · rw [if_neg hab] at h1
      by_cases hba : b.toNat < a.toNat
      · rw [if_pos hba] at h1
        exact Bool.noConfusion h1
      · rw [if_neg hba] at h1
        by_cases hbc : b.toNat < c.toNat
        · simp [show a.toNat < c.toNat by omega]
        · rw [if_neg hbc] at h2
          by_cases hcb : c.toNat < b.toNat
          · rw [if_pos hcb] at h2
            exact Bool.noConfusion h2
          · rw [if_neg hcb] at h2
            rw [if_neg (show ¬ a.toNat < c.toNat by omega),
              if_neg (show ¬ c.toNat < a.toNat by omega)]
            exact strLt_trans as bs cs h1 h2

theorem strLt_total : ∀ a b, a = b ∨ strLt a b = true ∨ strLt b a = true
  | [], [] => Or.inl rfl
  | [], _ :: _ => Or.inr (Or.inl rfl)
  | _ :: _, [] => Or.inr (Or.inr rfl)
  | a :: as, b :: bs => by
    by_cases hab : a.toNat < b.toNat
    · refine Or.inr (Or.inl ?_)
      simp [strLt, hab]
    by_cases hba : b.toNat < a.toNat
    · refine Or.inr (Or.inr ?_)
      simp [strLt, hba]
    have heq : a = b := char_eq_of_toNat_eq (by omega)
    subst heq
    rcases strLt_total as bs with h | h | h
    · exact Or.inl (by rw [h])
    · exact Or.inr (Or.inl (by simp [strLt, h]))
    · exact Or.inr (Or.inr (by simp [strLt, h]))

theorem strLt_asymm {a b : List Char} (h1 : strLt a b = true)
    (h2 : strLt b a = true) : False := by
  have := strLt_trans a b a h1 h2
  rw [strLt_irrefl] at this
  exact Bool.noConfusion this

theorem strLtS_irrefl (s : String) : strLtS s s = false := strLt_irrefl s.data

theorem strLtS_trans {a b c : String} (h1 : strLtS a b = true)
    (h2 : strLtS b c = true) : strLtS a c = true :=
  strLt_trans a.data b.data c.data h1 h2

theorem strLtS_total (a b : String) :
    a = b ∨ strLtS a b = true ∨ strLtS b a = true := by
  rcases strLt_total a.data b.data with h | h | h
  · left
    cases a; cases b
    exact congrArg String.mk h
  · exact Or.inr (Or.inl h)
  · exact Or.inr (Or.inr h)

theorem strLtS_asymm {a b : String} (h1 : strLtS a b = true)
    (h2 : strLtS b a = true) : False := strLt_asymm h1 h2

/-! ### Stripping and the canonical round trip -/

theorem dropWhile_eq_self_of_not {p : Char → Bool} :
    ∀ l : List Char, (∀ c ∈ l, p c = false) → l.dropWhile p = l
  | [], _ => rfl
  | c :: cs, h => by
    rw [List.dropWhile_cons, h c (List.mem_cons_self c cs)]
    simp

theorem pyStrip_eq_self {l : List Char} (h : ∀ c ∈ l, c.isWhitespace = false) :
    pyStrip l = l := by
  unfold pyStrip
  rw [dropWhile_eq_self_of_not l h,
    dropWhile_eq_self_of_not l.reverse (fun c hc => h c (List.mem_reverse.mp hc)),
    List.reverse_reverse]

/-- The `YYYY-MM` string shape: four digits, a dash, two digits. -/
def monthShape (l : List Char) : Bool :=
  match l with
  | [a, b, c, d, e, f, g] =>
    a.isDigit && b.isDigit && c.isDigit && d.isDigit && e = '-' &&
      f.isDigit && g.isDigit
  | _ => false

/-- A canonical MonthKey string per the spec data model: `YYYY-MM` with a
zero-padded month component between 01 and 12. -/
def isMonthKeyStr (s : String) : Bool :=
  match s.data with
  | [a, b, c, d, e, f, g] =>
    a.isDigit && b.isDigit && c.isDigit && d.isDigit && e = '-' &&
      f.isDigit && g.isDigit &&
      1 ≤ digitsToNat [f, g] && digitsToNat [f, g] ≤ 12
  | _ => false

theorem monthShape_spec {l : List Char} (h : monthShape l = true) :
    ∃ a b c d f g, l = [a, b, c, d, '-', f, g] ∧ a.isDigit = true ∧
      b.isDigit = true ∧ c.isDigit = true ∧ d.isDigit = true ∧
      f.isDigit = true ∧ g.isDigit = true := by
  unfold monthShape at h
  split at h
  case h_1 a b c d e f g =>
    simp only [Bool.and_eq_true, decide_eq_true_eq] at h
    obtain ⟨⟨⟨⟨⟨⟨ha, hb⟩, hc⟩, hd⟩, he⟩, hf⟩, hg⟩ := h
    subst he
    exact ⟨a, b, c, d, f, g, rfl, ha, hb, hc, hd, hf, hg⟩
  case h_2 => exact absurd h (by simp)

theorem monthShape_of_isMonthKeyStr {s : String} (h : isMonthKeyStr s = true) :
    monthShape s.data = true := by
  unfold isMonthKeyStr at h
  unfold monthShape
  split at h
  case h_1 a b c d e f g heq =>
    simp only [Bool.and_eq_true] at h ⊢
    exact h.1.1
  case h_2 => exact absurd h (by simp)

theorem matchISO_of_shape {a b c d f g : Char} (rest : List Char)
    (ha : a.isDigit = true) (hb : b.isDigit = true) (hc : c.isDigit = true)
    (hd : d.isDigit = true) (hf : f.isDigit = true) (hg : g.isDigit = true) :
    matchISO (a :: b :: c :: d :: '-' :: f :: g :: '-' :: '0' :: '1' :: rest) =
      some [a, b, c, d, '-', f, g] := by
  simp [matchISO, ha, hb, hc, hd, hf, hg]

/-- Core of the round trip: a `YYYY-MM`-shaped string with `-01` appended
parses back to itself via the ISO pattern. -/
theorem parseCell_roundtrip {a b c d f g : Char}
    (ha : a.isDigit = true) (hb : b.isDigit = true) (hc : c.isDigit = true)
    (hd : d.isDigit = true) (hf : f.isDigit = true) (hg : g.isDigit = true) :
    parseCell [a, b, c, d, '-', f, g, '-', '0', '1'] =
      some [a, b, c, d, '-', f, g] := by
  have hnows : ∀ ch ∈ [a, b, c, d, '-', f, g, '-', '0', '1'],
      ch.isWhitespace = false := by
    intro ch hch
    simp only [List.mem_cons, List.not_mem_nil, or_false] at hch
    rcases hch with rfl | rfl | rfl | rfl | rfl | rfl | rfl | rfl | rfl | rfl
    · exact not_whitespace_of_isDigit ha
    · exact not_whitespace_of_isDigit hb
    · exact not_whitespace_of_isDigit hc
    · exact not_whitespace_of_isDigit hd
    · decide
    · exact not_whitespace_of_isDigit hf
    · exact not_whitespace_of_isDigit hg
    · decide
    · decide
    · decide
  unfold parseCell
  rw [pyStrip_eq_self hnows]
  simp only [List.isEmpty, Bool.false_eq_true, if_false]
  unfold parseStripped
  rw [matchISO_of_shape [] ha hb hc hd hf hg]

theorem string_mk_data (s : String) : String.mk s.data = s := by
  cases s
  rfl

/-- String-level round trip: appending `-01` to a `YYYY-MM`-shaped string
and parsing recovers the original string. -/
theorem parse_roundtrip_of_shape {s : String} (h : monthShape s.data = true) :
    parse_month_cell_to_yyyymm (s ++ "-01") = some s := by
  obtain ⟨a, b, c, d, f, g, hdata, ha, hb, hc, hd, hf, hg⟩ := monthShape_spec h
  unfold parse_month_cell_to_yyyymm
  have happ : (s ++ "-01").data = s.data ++ ['-', '0', '1'] := by
    rw [String.data_append]
  rw [happ, hdata]
  have : ([a, b, c, d, '-', f, g] ++ ['-', '0', '1'] : List Char) =
      [a, b, c, d, '-', f, g, '-', '0', '1'] := rfl
  rw [this, parseCell_roundtrip ha hb hc hd hf hg]
  show some (String.mk [a, b, c, d, '-', f, g]) = some s
  rw [← hdata, string_mk_data]

theorem parse_roundtrip_monthKey {s : String} (h : isMonthKeyStr s = true) :
    parse_month_cell_to_yyyymm (s ++ "-01") = some s :=
  parse_roundtrip_of_shape (monthShape_of_isMonthKeyStr h)

/-! ### Claim C3: parser round trip on canonical MonthKeys -/

/-- A MonthKey of the spec data model: a calendar (year, month) pair. -/
structure MonthKey where
  year : Nat
  month : Nat

/-- Canonical string form `YYYY-MM` (both components zero-padded). -/
def canonicalString (k : MonthKey) : String :=
  String.mk (zfill 4 k.year ++ '-' :: zfill 2 k.month)

/-- Canonical cell-write form `YYYY-MM-01`. -/
def canonicalWrite (k : MonthKey) : String := canonicalString k ++ "-01"

theorem monthShape_canonicalString {k : MonthKey} (hy : k.year < 10000)
    (hm : k.month ≤ 12) : monthShape (canonicalString k).data = true := by
  have h4 : (zfill 4 k.year).length = 4 :=
    zfill_length_of_lt (by omega) (by omega)
  have h2 : (zfill 2 k.month).length = 2 :=
    zfill_length_of_lt (by omega) (by omega)
  obtain ⟨a, b, c, d, hy4⟩ := exists_four_of_length h4
  obtain ⟨f, g, hm2⟩ := exists_two_of_length h2
  have hydig := List.all_eq_true.mp (zfill_all_isDigit 4 k.year)
  have hmdig := List.all_eq_true.mp (zfill_all_isDigit 2 k.month)
  rw [hy4] at hydig
  rw [hm2] at hmdig
  have hdata : (canonicalString k).data = [a, b, c, d, '-', f, g] := by
    show zfill 4 k.year ++ '-' :: zfill 2 k.month = _
    rw [hy4, hm2]
    rfl
  rw [hdata]
  simp only [monthShape, Bool.and_eq_true, decide_eq_true_eq]
  refine ⟨⟨⟨⟨⟨⟨?_, ?_⟩, ?_⟩, ?_⟩, trivial⟩, ?_⟩, ?_⟩
  · exact hydig a (by simp)
  · exact hydig b (by simp)
  · exact hydig c (by simp)
  · exact hydig d (by simp)
  · exact hmdig f (by simp)
  · exact hmdig g (by simp)

/-- C3: for every MonthKey `m` (a 4-digit year and a month between 1 and
12, whose canonical string is `YYYY-MM`), parsing the canonical cell-write
form `m ++ "-01"` yields back exactly `m`:
`parse(canonicalWrite(m)) = canonicalString(m)`. -/
theorem claim_C3_parser_roundtrip (k : MonthKey) (hy : k.year < 10000)
    (_h1 : 1 ≤ k.month) (h2 : k.month ≤ 12) :
    parse_month_cell_to_yyyymm (canonicalWrite k) = some (canonicalString k) :=
  parse_roundtrip_of_shape (monthShape_canonicalString hy h2)

/-- Witness for C3 at the concrete MonthKey 2025-06. -/
theorem claim_C3_witness :
    parse_month_cell_to_yyyymm (canonicalWrite ⟨2025, 6⟩) =
        some (canonicalString ⟨2025, 6⟩) ∧
      canonicalWrite ⟨2025, 6⟩ = "2025-06-01" ∧
      canonicalString ⟨2025, 6⟩ = "2025-06" :=
  ⟨claim_C3_parser_roundtrip ⟨2025, 6⟩ (by decide) (by decide) (by decide),
    by decide, by decide⟩

/-! ### Claim C4: the slash-date heuristic -/

theorem matchISO_shape : ∀ {t r : List Char}, matchISO t = some r →
    ∃ a b c d m1 m2 d1 d2 rest,
      t = a :: b :: c :: d :: '-' :: m1 :: m2 :: '-' :: d1 :: d2 :: rest ∧
        a.isDigit = true ∧ b.isDigit = true ∧ c.isDigit = true ∧
        d.isDigit = true ∧ m1.isDigit = true ∧ m2.isDigit = true ∧
        d1.isDigit = true ∧ d2.isDigit = true ∧
        r = [a, b, c, d, '-', m1, m2] := by
  intro t r h
  match t with
  | [] => simp [matchISO] at h
  | [_] => simp [matchISO] at h
  | [_, _] => simp [matchISO] at h
  | [_, _, _] => simp [matchISO] at h
  | [_, _, _, _] => simp [matchISO] at h
  | [_, _, _, _, _] => simp [matchISO] at h
  | [_, _, _, _, _, _] => simp [matchISO] at h
  | [_, _, _, _, _, _, _] => simp [matchISO] at h
  | [_, _, _, _, _, _, _, _] => simp [matchISO] at h
  | [_, _, _, _, _, _, _, _, _] => simp [matchISO] at h
  | a :: b :: c :: d :: e :: m1 :: m2 :: e2 :: d1 :: d2 :: rest =>
    simp only [matchISO] at h
    split at h
    · rename_i hcond
      simp only [Bool.and_eq_true, decide_eq_true_eq] at hcond
      obtain ⟨⟨⟨⟨⟨⟨⟨⟨⟨ha, hb⟩, hc⟩, hd⟩, he⟩, hm1⟩, hm2⟩, he2⟩, hd1⟩, hd2⟩ :=
        hcond
      subst he
      subst he2
      injection h with h
      exact ⟨a, b, c, d, m1, m2, d1, d2, rest, rfl, ha, hb, hc, hd, hm1, hm2,
        hd1, hd2, h.symm⟩
    · exact absurd h (by simp)

theorem matchISO_none_slash1 (a : Char) (X : List Char) :
    matchISO (a :: '/' :: X) = none := by
  cases hISO : matchISO (a :: '/' :: X) with
  | none => rfl
  | some r =>
    obtain ⟨a', b', c', d', m1, m2, d1, d2, rest', ht, -, hb', -, -, -, -, -,
      -, -⟩ := matchISO_shape hISO
    injection ht with h1 ht
    injection ht with h2 ht
    rw [← h2] at hb'
    exact absurd hb' (by decide)

theorem matchISO_none_slash2 (a1 a2 : Char) (X : List Char) :
    matchISO (a1 :: a2 :: '/' :: X) = none := by
  cases hISO : matchISO (a1 :: a2 :: '/' :: X) with
  | none => rfl
  | some r =>
    obtain ⟨a', b', c', d', m1, m2, d1, d2, rest', ht, -, -, hc', -, -, -, -,
      -, -⟩ := matchISO_shape hISO
    injection ht with h1 ht
    injection ht with h2 ht
    injection ht with h3 ht
    rw [← h3] at hc'
    exact absurd hc' (by decide)

theorem slashNum_one {c1 : Char} (h1 : c1.isDigit = true) (rest : List Char) :
    slashNum (c1 :: '/' :: rest) = some (digitsToNat [c1], rest) := by
  simp [slashNum, h1]

theorem slashNum_two {c1 c2 : Char} (h1 : c1.isDigit = true)
    (h2 : c2.isDigit = true) (rest : List Char) :
    slashNum (c1 :: c2 :: '/' :: rest) = some (digitsToNat [c1, c2], rest) := by
  simp [slashNum, h1, h2]

theorem year4_of_digits {y1 y2 y3 y4 : Char} (h1 : y1.isDigit = true)
    (h2 : y2.isDigit = true) (h3 : y3.isDigit = true) (h4 : y4.isDigit = true)
    (rest : List Char) :
    year4 (y1 :: y2 :: y3 :: y4 :: rest) =
      some (digitsToNat [y1, y2, y3, y4]) := by
  simp [year4, h1, h2, h3, h4]

theorem exists_one_of_length {l : List Char} (h : l.length = 1) :
    ∃ a, l = [a] := by
  match l, h with
  | [a], _ => exact ⟨a, rfl⟩

/-- The slash pattern succeeds on a `A/B/YYYY`-prefixed string and never
reaches the later patterns; the digit characters of each group are all
consumed. -/
theorem slash_parse {s : String} {A B Y rest : List Char}
    (hs : pyStrip s.data = A ++ '/' :: (B ++ '/' :: (Y ++ rest)))
    (hA1 : A.length = 1 ∨ A.length = 2) (hA2 : A.all Char.isDigit = true)
    (hB1 : B.length = 1 ∨ B.length = 2) (hB2 : B.all Char.isDigit = true)
    (hY1 : Y.length = 4) (hY2 : Y.all Char.isDigit = true) :
    parse_month_cell_to_yyyymm s =
      some (String.mk (zfill 4 (digitsToNat Y) ++ '-' ::
        zfill 2 (if digitsToNat A > 12 then digitsToNat B
                 else if digitsToNat B > 12 then digitsToNat A
                 else digitsToNat A))) := by
  obtain ⟨y1, y2, y3, y4, hYeq⟩ := exists_four_of_length hY1
  have hy1 : y1.isDigit = true := by
    apply List.all_eq_true.mp hY2; rw [hYeq]; simp
  have hy2 : y2.isDigit = true := by
    apply List.all_eq_true.mp hY2; rw [hYeq]; simp
  have hy3 : y3.isDigit = true := by
    apply List.all_eq_true.mp hY2; rw [hYeq]; simp
  have hy4 : y4.isDigit = true := by
    apply List.all_eq_true.mp hY2; rw [hYeq]; simp
  have hyear : year4 (Y ++ rest) = some (digitsToNat Y) := by
    rw [hYeq]
    exact year4_of_digits hy1 hy2 hy3 hy4 rest
  have hBnum : slashNum (B ++ '/' :: (Y ++ rest)) =
      some (digitsToNat B, Y ++ rest) := by
    rcases hB1 with h1 | h2
    · obtain ⟨b1, hBeq⟩ := exists_one_of_length h1
      subst hBeq
      exact slashNum_one (by simpa using hB2) _
    · obtain ⟨b1, b2, hBeq⟩ := exists_two_of_length h2
      subst hBeq
      simp only [List.all_cons, List.all_nil, Bool.and_eq_true,
        Bool.and_true] at hB2
      exact slashNum_two hB2.1 hB2.2 _
  have hAnum : slashNum (A ++ '/' :: (B ++ '/' :: (Y ++ rest))) =
      some (digitsToNat A, B ++ '/' :: (Y ++ rest)) := by
    rcases hA1 with h1 | h2
    · obtain ⟨a1, hAeq⟩ := exists_one_of_length h1
      subst hAeq
      exact slashNum_one (by simpa using hA2) _
    · obtain ⟨a1, a2, hAeq⟩ := exists_two_of_length h2
      subst hAeq
      simp only [List.all_cons, List.all_nil, Bool.and_eq_true,
        Bool.and_true] at hA2
      exact slashNum_two hA2.1 hA2.2 _
  have hslash : matchSlash (pyStrip s.data) =
      some (zfill 4 (digitsToNat Y) ++ '-' ::
        zfill 2 (if digitsToNat A > 12 then digitsToNat B
                 else if digitsToNat B > 12 then digitsToNat A
                 else digitsToNat A)) := by
    rw [hs]
    simp only [matchSlash, hAnum, hBnum, hyear]
  have hiso : matchISO (pyStrip s.data) = none := by
    rw [hs]
    rcases hA1 with h1 | h2
    · obtain ⟨a1, hAeq⟩ := exists_one_of_length h1
      subst hAeq
      exact matchISO_none_slash1 a1 _
    · obtain ⟨a1, a2, hAeq⟩ := exists_two_of_length h2
      subst hAeq
      exact matchISO_none_slash2 a1 a2 _
  have hne : (pyStrip s.data).isEmpty = false := by
    rw [hs]
    rcases hA1 with h1 | h2
    · obtain ⟨a1, hAeq⟩ := exists_one_of_length h1
      subst hAeq
      rfl
    · obtain ⟨a1, a2, hAeq⟩ := exists_two_of_length h2
      subst hAeq
      rfl
  simp only [parse_month_cell_to_yyyymm, parseCell, hne, Bool.false_eq_true,
    if_false, parseStripped, hiso, hslash, Option.map]

/-- C4: for every input whose trimmed prefix matches `A/B/YYYY` with `A`,
`B` 1-2-digit numbers, parse recognizes it as a month of year `YYYY`: if
`A > 12` the month is `B`; else if `B > 12` the month is `A`; else the
month is `A`.  In particular `parse "13/01/2025" = 2025-01`,
`parse "01/13/2025" = 2025-01`, `parse "05/06/2025" = 2025-05`; ambiguity
never causes a parse failure. -/
theorem claim_C4_slash_heuristic :
    (∀ (s : String) (A B Y rest : List Char),
      pyStrip s.data = A ++ '/' :: (B ++ '/' :: (Y ++ rest)) →
      (A.length = 1 ∨ A.length = 2) → A.all Char.isDigit = true →
      (B.length = 1 ∨ B.length = 2) → B.all Char.isDigit = true →
      Y.length = 4 → Y.all Char.isDigit = true →
      parse_month_cell_to_yyyymm s =
        some (String.mk (zfill 4 (digitsToNat Y) ++ '-' ::
          zfill 2 (if digitsToNat A > 12 then digitsToNat B
                   else if digitsToNat B > 12 then digitsToNat A
                   else digitsToNat A)))) ∧
    parse_month_cell_to_yyyymm "13/01/2025" = some "2025-01" ∧
    parse_month_cell_to_yyyymm "01/13/2025" = some "2025-01" ∧
    parse_month_cell_to_yyyymm "05/06/2025" = some "2025-05" :=
  ⟨fun _ _ _ _ _ hs hA1 hA2 hB1 hB2 hY1 hY2 =>
      slash_parse hs hA1 hA2 hB1 hB2 hY1 hY2,
    by decide, by decide, by decide⟩

/-- Witness for C4: the universally quantified part applied at the
concrete ambiguous input `05/06/2025`. -/
theorem claim_C4_witness :
    parse_month_cell_to_yyyymm "05/06/2025" =
      some (String.mk (zfill 4 (digitsToNat ['2', '0', '2', '5']) ++ '-' ::
        zfill 2 (if digitsToNat ['0', '5'] > 12 then digitsToNat ['0', '6']
                 else if digitsToNat ['0', '6'] > 12 then digitsToNat ['0', '5']
                 else digitsToNat ['0', '5']))) :=
  claim_C4_slash_heuristic.1 "05/06/2025" ['0', '5'] ['0', '6']
    ['2', '0', '2', '5'] [] (by decide) (by decide) (by decide) (by decide)
    (by decide) (by decide) (by decide)

/-! ### Claims C6 and C7: success shapes of the remaining patterns -/

theorem matchTextual_shape {t r : List Char} (h : matchTextual t = some r) :
    ∃ lastTok mm,
      2 ≤ (splitWs (t.map Char.toLower)).length ∧
      (splitWs (t.map Char.toLower)).getLast? = some lastTok ∧
      lastTok ≠ [] ∧ lastTok.all Char.isDigit = true ∧
      tableLookup MONTHS
        (String.mk ((((splitWs (t.map Char.toLower)).dropLast.flatten).filter
          isWordChar))) = some mm ∧
      r = zfill 4 (digitsToNat lastTok) ++ '-' :: zfill 2 mm := by
  simp only [matchTextual] at h
  split at h
  · rename_i hlen
    split at h
    · exact absurd h (by simp)
    · rename_i lastTok hlast
      split at h
      · rename_i hcond
        split at h
        · exact absurd h (by simp)
        · rename_i mm hmm
          simp only [ne_eq, Bool.and_eq_true, decide_eq_true_eq] at hcond
          injection h with h
          exact ⟨lastTok, mm, hlen, hlast, hcond.1, hcond.2, hmm, h.symm⟩
      · exact absurd h (by simp)
  · exact absurd h (by simp)

theorem slashNum_bound : ∀ {t : List Char} {v : Nat} {rest : List Char},
    slashNum t = some (v, rest) → v < 100 := by
  intro t v rest h
  match t with
  | [] => simp [slashNum] at h
  | [_] => simp [slashNum] at h
  | c1 :: c2 :: r =>
    simp only [slashNum] at h
    split at h
    · rename_i h1
      split at h
      · rename_i h2
        split at h
        · rename_i r2 heq
          simp only [Option.some.injEq, Prod.mk.injEq] at h
          obtain ⟨hv, -⟩ := h
          have := digitsToNat_lt [c1, c2] (by simp [h1, h2])
          simp only [List.length_cons, List.length_nil] at this
          omega
        · exact absurd h (by simp)
      · rename_i h2
        split at h
        · rename_i h3
          simp only [Option.some.injEq, Prod.mk.injEq] at h
          obtain ⟨hv, -⟩ := h
          have := digitsToNat_lt [c1] (by simp [h1])
          simp only [List.length_cons, List.length_nil] at this
          omega
        · exact absurd h (by simp)
    · exact absurd h (by simp)

theorem year4_bound : ∀ {t : List Char} {y : Nat}, year4 t = some y →
    y < 10000 := by
  intro t y h
  match t with
  | [] => simp [year4] at h
  | [_] => simp [year4] at h
  | [_, _] => simp [year4] at h
  | [_, _, _] => simp [year4] at h
  | a :: b :: c :: d :: rest =>
    simp only [year4] at h
    split at h
    · rename_i hcond
      simp only [Bool.and_eq_true] at hcond
      injection h with h
      have := digitsToNat_lt [a, b, c, d]
        (by simp [hcond.1.1.1, hcond.1.1.2, hcond.1.2, hcond.2])
      simp only [List.length_cons, List.length_nil] at this
      omega
    · exact absurd h (by simp)

theorem matchSlash_shape {t r : List Char} (h : matchSlash t = some r) :
    ∃ yy mm, yy < 10000 ∧ mm < 100 ∧
      r = zfill 4 yy ++ '-' :: zfill 2 mm := by
  cases hA : slashNum t with
  | none => simp [matchSlash, hA] at h
  | some p =>
    obtain ⟨a, t1⟩ := p
    cases hB : slashNum t1 with
    | none => simp [matchSlash, hA, hB] at h
    | some q =>
      obtain ⟨b, t2⟩ := q
      cases hY : year4 t2 with
      | none => simp [matchSlash, hA, hB, hY] at h
      | some yy =>
        simp only [matchSlash, hA, hB, hY, Option.some.injEq] at h
        have ha := slashNum_bound hA
        have hb := slashNum_bound hB
        refine ⟨yy, if a > 12 then b else if b > 12 then a else a,
          year4_bound hY, ?_, h.symm⟩
        split
        · exact hb
        · split
          · exact ha
          · exact ha

theorem matchYM_shape : ∀ {t r : List Char}, matchYM t = some r →
    ∃ a b c d f g, r = [a, b, c, d, '-', f, g] ∧ a.isDigit = true ∧
      b.isDigit = true ∧ c.isDigit = true ∧ d.isDigit = true ∧
      f.isDigit = true ∧ g.isDigit = true := by
  intro t r h
  match t with
  | [] => simp [matchYM] at h
  | [_] => simp [matchYM] at h
  | [_, _] => simp [matchYM] at h
  | [_, _, _] => simp [matchYM] at h
  | [_, _, _, _] => simp [matchYM] at h
  | [_, _, _, _, _] => simp [matchYM] at h
  | [_, _, _, _, _, _] => simp [matchYM] at h
  | [a, b, c, d, e, f, g] =>
    simp only [matchYM] at h
    split at h
    · rename_i hcond
      simp only [Bool.and_eq_true, decide_eq_true_eq] at hcond
      obtain ⟨⟨⟨⟨⟨⟨ha, hb⟩, hc⟩, hd⟩, he⟩, hf⟩, hg⟩ := hcond
      subst he
      injection h with h
      exact ⟨a, b, c, d, f, g, h.symm, ha, hb, hc, hd, hf, hg⟩
    · exact absurd h (by simp)
  | _ :: _ :: _ :: _ :: _ :: _ :: _ :: _ :: _ => simp [matchYM] at h

theorem tableLookup_mem : ∀ (tbl : List (String × Nat)) (s : String) (v : Nat),
    tableLookup tbl s = some v → (s, v) ∈ tbl
  | [], _, _, h => by simp [tableLookup] at h
  | (k, w) :: rest, s, v, h => by
    simp only [tableLookup] at h
    split at h
    · rename_i heq
      injection h with h
      subst heq
      subst h
      exact List.mem_cons_self _ _
    · exact List.mem_cons_of_mem _ (tableLookup_mem rest s v h)

theorem MONTHS_value_bounds {s : String} {v : Nat}
    (h : tableLookup MONTHS s = some v) : 1 ≤ v ∧ v ≤ 12 := by
  have hmem := tableLookup_mem MONTHS s v h
  have hall : ∀ p ∈ MONTHS, 1 ≤ p.2 ∧ p.2 ≤ 12 := by decide
  exact hall _ hmem

/-- Inversion of the pattern cascade of `parse_month_cell_to_yyyymm`. -/
theorem parseStripped_cases {t l : List Char} (h : parseStripped t = some l) :
    matchISO t = some l ∨
      (matchISO t = none ∧ matchSlash t = some l) ∨
      (matchISO t = none ∧ matchSlash t = none ∧ matchTextual t = some l) ∨
      (matchISO t = none ∧ matchSlash t = none ∧ matchTextual t = none ∧
        matchYM t = some l) := by
  cases hI : matchISO t with
  | some r =>
    left
    rw [← h]
    simp [parseStripped, hI]
  | none =>
    cases hS : matchSlash t with
    | some r =>
      refine Or.inr (Or.inl ⟨rfl, ?_⟩)
      rw [← h]
      simp [parseStripped, hI, hS]
    | none =>
      cases hT : matchTextual t with
      | some r =>
        refine Or.inr (Or.inr (Or.inl ⟨rfl, rfl, ?_⟩))
        rw [← h]
        simp [parseStripped, hI, hS, hT]
      | none =>
        refine Or.inr (Or.inr (Or.inr ⟨rfl, rfl, rfl, ?_⟩))
        rw [← h]
        simp [parseStripped, hI, hS, hT]

/-- Every successful parse returns a string of the form
`<year digits>-<2 month digits>` with at least four year digits. -/
theorem parse_month_shape {s r : String}
    (h : parse_month_cell_to_yyyymm s = some r) :
    ∃ ys ms, r.data = ys ++ '-' :: ms ∧ 4 ≤ ys.length ∧
      ys.all Char.isDigit = true ∧ ms.length = 2 ∧
      ms.all Char.isDigit = true := by
  unfold parse_month_cell_to_yyyymm at h
  rw [Option.map_eq_some'] at h
  obtain ⟨l, hl, hmk⟩ := h
  have hrdata : r.data = l := by rw [← hmk]
  have hl' : parseStripped (pyStrip s.data) = some l := by
    simp only [parseCell] at hl
    by_cases hempty : (pyStrip s.data).isEmpty = true
    · rw [if_pos hempty] at hl
      exact absurd hl (by simp)
    · rwa [if_neg hempty] at hl
  rcases parseStripped_cases hl' with hI | ⟨-, hS⟩ | ⟨-, -, hT⟩ | ⟨-, -, -, hY⟩
  · obtain ⟨a, b, c, d, m1, m2, d1, d2, rest, -, ha, hb, hc, hd, hm1, hm2, -,
      -, hr⟩ := matchISO_shape hI
    refine ⟨[a, b, c, d], [m1, m2], by rw [hrdata, hr]; rfl, by simp, ?_,
      rfl, ?_⟩
    · simp [ha, hb, hc, hd]
    · simp [hm1, hm2]
  · obtain ⟨yy, mm, hyy, hmm, hr⟩ := matchSlash_shape hS
    refine ⟨zfill 4 yy, zfill 2 mm, by rw [hrdata, hr], ?_,
      zfill_all_isDigit 4 yy, zfill_length_of_lt (by omega) (by omega),
      zfill_all_isDigit 2 mm⟩
    rw [zfill_length]
    omega
  · obtain ⟨lastTok, mm, -, -, -, -, hmm, hr⟩ := matchTextual_shape hT
    have hmmb := MONTHS_value_bounds hmm
    refine ⟨zfill 4 (digitsToNat lastTok), zfill 2 mm, by rw [hrdata, hr], ?_,
      zfill_all_isDigit _ _, zfill_length_of_lt (by omega) (by omega),
      zfill_all_isDigit _ _⟩
    rw [zfill_length]
    omega
  · obtain ⟨a, b, c, d, f, g, hr, ha, hb, hc, hd, hf, hg⟩ := matchYM_shape hY
    refine ⟨[a, b, c, d], [f, g], by rw [hrdata, hr]; rfl, by simp, ?_,
      rfl, ?_⟩
    · simp [ha, hb, hc, hd]
    · simp [hf, hg]

/-- C6 counterexample: the textual pattern accepts a 3-digit final token.
`parse("jan 999")` succeeds (via the month-name pattern, zero-padding the
year), although `"999"` is not a 4-digit year. -/
theorem claim_C6_counterexample :
    parse_month_cell_to_yyyymm "jan 999" = some "0999-01" ∧
      matchTextual (pyStrip "jan 999".data) = some "0999-01".data ∧
      "999".data.length ≠ 4 ∧
      parse_month_cell_to_yyyymm "jan 20255" = some "20255-01" := by
  refine ⟨by decide, by decide, by decide, by decide⟩

/-- C6 (amended): textual month-name recognition (pattern 3) succeeds only
when the last whitespace-delimited token of the input is a nonempty digit
string (of any length, not necessarily 4 digits; the year is zero-padded
to at least four digits on output) and the preceding tokens, concatenated
with punctuation stripped, form a known Romanian or English month name or
abbreviation (case-insensitive). -/
theorem claim_C6_textual_month_name :
    ∀ t r : List Char, matchTextual t = some r →
    ∃ lastTok mm,
      2 ≤ (splitWs (t.map Char.toLower)).length ∧
      (splitWs (t.map Char.toLower)).getLast? = some lastTok ∧
      lastTok ≠ [] ∧ lastTok.all Char.isDigit = true ∧
      tableLookup MONTHS
        (String.mk ((((splitWs (t.map Char.toLower)).dropLast.flatten).filter
          isWordChar))) = some mm ∧
      r = zfill 4 (digitsToNat lastTok) ++ '-' :: zfill 2 mm :=
  fun _ _ h => matchTextual_shape h

/-- Witness for C6 at the concrete input `ian 2025`. -/
theorem claim_C6_witness :
    ∃ lastTok mm,
      2 ≤ (splitWs ("ian 2025".data.map Char.toLower)).length ∧
      (splitWs ("ian 2025".data.map Char.toLower)).getLast? = some lastTok ∧
      lastTok ≠ [] ∧ lastTok.all Char.isDigit = true ∧
      tableLookup MONTHS
        (String.mk ((((splitWs ("ian 2025".data.map Char.toLower)).dropLast.flatten).filter
          isWordChar))) = some mm ∧
      ['2', '0', '2', '5', '-', '0', '1'] =
        zfill 4 (digitsToNat lastTok) ++ '-' :: zfill 2 mm :=
  claim_C6_textual_month_name "ian 2025".data
    ['2', '0', '2', '5', '-', '0', '1'] (by decide)

/-- C7 counterexample: `parse("2025-13-01")` is recognized and returns
`2025-13`, whose month component 13 is outside 01..12, refuting the claim
that every recognized result is a normalized calendar month. -/
theorem claim_C7_counterexample :
    parse_month_cell_to_yyyymm "2025-13-01" = some "2025-13" ∧
      isMonthKeyStr "2025-13" = false ∧
      parse_month_cell_to_yyyymm "2025-99" = some "2025-99" ∧
      isMonthKeyStr "2025-99" = false := by
  refine ⟨by decide, by decide, by decide, by decide⟩

/-- C7 (amended): every recognized result of parse has the surface form
`<year digits>-<two month digits>` with at least four year digits, but
the month component is not guaranteed to lie between 01 and 12 (the ISO,
slash and `YYYY-MM`-literal patterns pass month digits through
unvalidated). -/
theorem claim_C7_parse_result_shape :
    ∀ s r : String, parse_month_cell_to_yyyymm s = some r →
    ∃ ys ms, r.data = ys ++ '-' :: ms ∧ 4 ≤ ys.length ∧
      ys.all Char.isDigit = true ∧ ms.length = 2 ∧
      ms.all Char.isDigit = true :=
  fun _ _ h => parse_month_shape h

/-- Witness for C7 at the concrete input `2025-01-01`. -/
theorem claim_C7_witness :
    ∃ ys ms, ("2025-01" : String).data = ys ++ '-' :: ms ∧ 4 ≤ ys.length ∧
      ys.all Char.isDigit = true ∧ ms.length = 2 ∧
      ms.all Char.isDigit = true :=
  claim_C7_parse_result_shape "2025-01-01" "2025-01" (by decide)

/-! ### Dictionary lemmas -/

/-- Keys of a dict, in insertion order. -/
def dictKeys (d : List (String × Nat)) : List String := d.map (fun p => p.1)

theorem dictLookup_map_replace_ne {m : String} {i : Nat} {k : String}
    (hk : k ≠ m) :
    ∀ d : List (String × Nat),
      dictLookup (d.map (fun p => if p.1 = m then (m, i) else p)) k =
        dictLookup d k
  | [] => rfl
  | p :: rest => by
    by_cases hp : p.1 = m
    · simp only [List.map_cons, if_pos hp, dictLookup, List.find?]
      have h1 : (decide (m = k)) = false := by
        simp
        exact fun h => hk h.symm
      have h2 : (decide (p.1 = k)) = false := by
        simp
        rw [hp]
        exact fun h => hk h.symm
      rw [h1, h2]
      exact dictLookup_map_replace_ne hk rest
    · simp only [List.map_cons, if_neg hp, dictLookup, List.find?]
      cases hpk : (decide (p.1 = k)) with
      | true => rfl
      | false => exact dictLookup_map_replace_ne hk rest

theorem dictLookup_insert (d : List (String × Nat)) (m : String) (i : Nat)
    (k : String) :
    dictLookup (dictInsert d m i) k =
      if k = m then some i else dictLookup d k := by
  unfold dictInsert
  by_cases hmem : d.any (fun p => p.1 = m) = true
  · rw [if_pos hmem]
    induction d with
    | nil => exact absurd hmem (by simp)
    | cons hd tl ih =>
      simp only [List.any_cons, Bool.or_eq_true, decide_eq_true_eq] at hmem
      by_cases hhd : hd.1 = m
      · simp only [List.map_cons, if_pos hhd]
        by_cases hk : k = m
        · subst hk
          simp [dictLookup, List.find?]
        · simp only [dictLookup, List.find?]
          have h1 : (decide (m = k)) = false := by
            simp
            exact fun h => hk h.symm
          rw [h1]
          have h2 : (decide (hd.1 = k)) = false := by
            simp
            rw [hhd]
            exact fun h => hk h.symm
          rw [if_neg hk, h2]
          exact dictLookup_map_replace_ne hk tl
      · have hmem' : tl.any (fun p => p.1 = m) = true := by
          simp only [List.any_eq_true, decide_eq_true_eq]
          rcases hmem with h | h
          · exact absurd h hhd
          · simpa using h
        simp only [List.map_cons, if_neg hhd]
        by_cases hk : k = m
        · subst hk
          simp only [dictLookup, List.find?]
          have h2 : (decide (hd.1 = k)) = false := by simpa using hhd
          rw [h2]
          have := ih hmem'
          simp only [if_pos rfl] at this
          exact this
        · simp only [dictLookup, List.find?, if_neg hk]
          cases hpk : (decide (hd.1 = k)) with
          | true => rfl
          | false => exact dictLookup_map_replace_ne hk tl
  · rw [if_neg hmem]
    simp only [List.any_eq_true, decide_eq_true_eq, not_exists] at hmem
    push_neg at hmem
    induction d with
    | nil =>
      by_cases hk : k = m
      · subst hk
        simp [dictLookup, List.find?]
      · simp only [dictLookup, List.find?]
        have h1 : (decide (m = k)) = false := by
          simp
          exact fun h => hk h.symm
        rw [h1, if_neg hk]
    | cons hd tl ih =>
      have hhd : ¬ hd.1 = m := hmem hd (List.mem_cons_self hd tl)
      simp only [List.cons_append, dictLookup, List.find?]
      cases hpk : (decide (hd.1 = k)) with
      | true =>
        have hk : ¬ k = m := by
          simp at hpk
          rw [← hpk]
          exact hhd
        rw [if_neg hk]
      | false =>
        have := ih (fun p hp => hmem p (List.mem_cons_of_mem hd hp))
        exact this

theorem dictKeys_insert_present {d : List (String × Nat)} {m : String}
    {i : Nat} (h : d.any (fun p => p.1 = m) = true) :
    dictKeys (dictInsert d m i) = dictKeys d := by
  unfold dictInsert
  rw [if_pos h]
  unfold dictKeys
  rw [List.map_map]
  apply List.map_congr_left
  intro p _
  by_cases hp : p.1 = m
  · simp [hp]
  · simp [hp]

theorem dictKeys_insert_absent {d : List (String × Nat)} {m : String}
    {i : Nat} (h : ¬ d.any (fun p => p.1 = m) = true) :
    dictKeys (dictInsert d m i) = dictKeys d ++ [m] := by
  unfold dictInsert
  rw [if_neg h]
  unfold dictKeys
  rw [List.map_append]
  rfl

theorem dictInsert_keys_nodup {d : List (String × Nat)} {m : String} {i : Nat}
    (h : (dictKeys d).Nodup) : (dictKeys (dictInsert d m i)).Nodup := by
  by_cases hmem : d.any (fun p => p.1 = m) = true
  · rw [dictKeys_insert_present hmem]
    exact h
  · rw [dictKeys_insert_absent hmem]
    rw [List.nodup_append]
    refine ⟨h, List.nodup_singleton m, ?_⟩
    intro x hx
    simp only [List.any_eq_true, decide_eq_true_eq] at hmem
    push_neg at hmem
    simp only [dictKeys, List.mem_map] at hx
    obtain ⟨p, hp, hpx⟩ := hx
    simp only [List.mem_singleton]
    intro hxm
    exact hmem p hp (by rw [hpx, hxm])

/-! ### Column-scan lemmas -/

/-- Row shift by one (the bookkeeping of a structural insertion). -/
def rowShift (p : Nat × String) : Nat × String := (p.1 + 1, p.2)

theorem collectAux_append : ∀ (l1 l2 : List String) (i : Nat),
    collectAux i (l1 ++ l2) = collectAux i l1 ++ collectAux (i + l1.length) l2
  | [], l2, i => by simp [collectAux]
  | v :: rest, l2, i => by
    simp only [List.cons_append, collectAux]
    cases parse_month_cell_to_yyyymm v with
    | some m =>
      simp only [List.cons_append, List.length_cons, List.append_eq]
      rw [collectAux_append rest l2 (i + 1)]
      have : i + 1 + rest.length = i + (rest.length + 1) := by omega
      rw [this]
    | none =>
      simp only [List.length_cons, List.append_eq]
      rw [collectAux_append rest l2 (i + 1)]
      have : i + 1 + rest.length = i + (rest.length + 1) := by omega
      rw [this]

theorem collectAux_shift : ∀ (l : List String) (i : Nat),
    collectAux (i + 1) l = (collectAux i l).map rowShift
  | [], _ => rfl
  | v :: rest, i => by
    simp only [collectAux]
    cases parse_month_cell_to_yyyymm v with
    | some m =>
      simp only [List.map_cons]
      rw [collectAux_shift rest (i + 1)]
      rfl
    | none => exact collectAux_shift rest (i + 1)

theorem collectAux_replicate_empty (n i : Nat) :
    collectAux i (List.replicate n "") = [] := by
  induction n generalizing i with
  | zero => rfl
  | succ n ih =>
    rw [List.replicate_succ]
    simp only [collectAux]
    have hparse : parse_month_cell_to_yyyymm "" = none := by decide
    rw [hparse]
    exact ih (i + 1)

theorem collectAux_bounds : ∀ (l : List String) (i : Nat)
    (p : Nat × String), p ∈ collectAux i l → i ≤ p.1 ∧ p.1 < i + l.length
  | [], _, _, h => by simp [collectAux] at h
  | v :: rest, i, p, h => by
    simp only [collectAux] at h
    cases hp : parse_month_cell_to_yyyymm v with
    | some m =>
      rw [hp] at h
      rcases List.mem_cons.mp h with rfl | h2
      · simp only [List.length_cons]
        omega
      · have := collectAux_bounds rest (i + 1) p h2
        simp only [List.length_cons]
        omega
    | none =>
      rw [hp] at h
      have := collectAux_bounds rest (i + 1) p h
      simp only [List.length_cons]
      omega

theorem collectAux_rows_pairwise : ∀ (l : List String) (i : Nat),
    (collectAux i l).Pairwise (fun p q => p.1 < q.1)
  | [], _ => List.Pairwise.nil
  | v :: rest, i => by
    simp only [collectAux]
    cases parse_month_cell_to_yyyymm v with
    | some m =>
      refine List.Pairwise.cons ?_ (collectAux_rows_pairwise rest (i + 1))
      intro q hq
      have := collectAux_bounds rest (i + 1) q hq
      show i < q.1
      omega
    | none => exact collectAux_rows_pairwise rest (i + 1)

theorem collectAux_month_iff : ∀ (l : List String) (i : Nat) (m : String),
    (∃ p ∈ collectAux i l, p.2 = m) ↔
      ∃ v ∈ l, parse_month_cell_to_yyyymm v = some m := by
  intro l
  induction l with
  | nil => simp [collectAux]
  | cons v rest ih =>
    intro i m
    cases hp : parse_month_cell_to_yyyymm v with
    | some m' =>
      simp only [collectAux, hp]
      constructor
      · intro ⟨p, hpmem, hpm⟩
        rcases List.mem_cons.mp hpmem with rfl | h2
        · exact ⟨v, List.mem_cons_self v rest, by rw [hp]; exact congrArg some hpm⟩
        · obtain ⟨w, hw, hwm⟩ := (ih (i + 1) m).mp ⟨p, h2, hpm⟩
          exact ⟨w, List.mem_cons_of_mem v hw, hwm⟩
      · intro ⟨w, hw, hwm⟩
        rcases List.mem_cons.mp hw with rfl | h2
        · rw [hp] at hwm
          injection hwm with hwm
          exact ⟨(i, m'), List.mem_cons_self _ _, hwm⟩
        · obtain ⟨p, hpmem, hpm⟩ := (ih (i + 1) m).mpr ⟨w, h2, hwm⟩
          exact ⟨p, List.mem_cons_of_mem _ hpmem, hpm⟩
    | none =>
      simp only [collectAux, hp]
      constructor
      · intro ⟨p, hpmem, hpm⟩
        obtain ⟨w, hw, hwm⟩ := (ih (i + 1) m).mp ⟨p, hpmem, hpm⟩
        exact ⟨w, List.mem_cons_of_mem v hw, hwm⟩
      · intro ⟨w, hw, hwm⟩
        rcases List.mem_cons.mp hw with rfl | h2
        · rw [hp] at hwm
          exact absurd hwm (by simp)
        · obtain ⟨p, hpmem, hpm⟩ := (ih (i + 1) m).mpr ⟨w, h2, hwm⟩
          exact ⟨p, hpmem, hpm⟩

/-- The rows holding month `k`, in scan order. -/
def rowsFor (es : List (Nat × String)) (k : String) : List Nat :=
  (es.filter (fun p => p.2 = k)).map (fun p => p.1)

theorem dictLookup_buildAux : ∀ (l : List String) (i : Nat)
    (d : List (String × Nat)) (k : String),
    dictLookup (buildAux i d l) k =
      match (rowsFor (collectAux i l) k).getLast? with
      | some r => some r
      | none => dictLookup d k := by
  intro l
  induction l with
  | nil => intro i d k; simp [buildAux, collectAux, rowsFor]
  | cons v rest ih =>
    intro i d k
    simp only [buildAux, collectAux]
    cases hp : parse_month_cell_to_yyyymm v with
    | none => rw [ih]
    | some m =>
      rw [ih]
      by_cases hk : m = k
      · subst hk
        have hcons : rowsFor ((i, m) :: collectAux (i + 1) rest) m =
            i :: rowsFor (collectAux (i + 1) rest) m := by
          simp [rowsFor, List.filter_cons]
        rw [hcons]
        cases hL : (rowsFor (collectAux (i + 1) rest) m).getLast? with
        | none =>
          rw [List.getLast?_eq_none_iff] at hL
          rw [hL]
          simp only [List.getLast?_singleton]
          rw [dictLookup_insert]
          simp
        | some r =>
          have hne : rowsFor (collectAux (i + 1) rest) m ≠ [] := by
            intro hnil
            rw [hnil] at hL
            exact Option.noConfusion hL
          obtain ⟨r0, rrest, hr0⟩ := List.exists_cons_of_ne_nil hne
          rw [hr0]
          rw [hr0] at hL
          rw [List.getLast?_cons_cons, hL]
      · have hskip : rowsFor ((i, m) :: collectAux (i + 1) rest) k =
            rowsFor (collectAux (i + 1) rest) k := by
          simp only [rowsFor, List.filter_cons]
          have hfalse : (decide ((i, m).2 = k)) = false := by simpa using hk
          rw [hfalse]
          simp
        rw [hskip]
        cases hL : (rowsFor (collectAux (i + 1) rest) k).getLast? with
        | none =>
          rw [dictLookup_insert]
          rw [if_neg (fun h => hk h.symm)]
        | some r => rfl

/-- `build_month_row_index` maps `k` to the last-scanned row whose cell
parses to `k`. -/
theorem dictLookup_build (col : List String) (k : String) :
    dictLookup (build_month_row_index col) k =
      (rowsFor (collectExisting col) k).getLast? := by
  unfold build_month_row_index collectExisting
  rw [dictLookup_buildAux]
  cases h : (rowsFor (collectAux 2 (col.drop 1)) k).getLast? with
  | some r => rfl
  | none => rfl

theorem build_keys_nodup (col : List String) :
    (dictKeys (build_month_row_index col)).Nodup := by
  unfold build_month_row_index
  have : ∀ (l : List String) (i : Nat) (d : List (String × Nat)),
      (dictKeys d).Nodup → (dictKeys (buildAux i d l)).Nodup := by
    intro l
    induction l with
    | nil => intro i d h; exact h
    | cons v rest ih =>
      intro i d h
      simp only [buildAux]
      cases parse_month_cell_to_yyyymm v with
      | some m => exact ih (i + 1) _ (dictInsert_keys_nodup h)
      | none => exact ih (i + 1) d h
  exact this _ 2 [] List.nodup_nil

theorem mem_rowsFor {es : List (Nat × String)} {m : String} {r : Nat} :
    r ∈ rowsFor es m ↔ (r, m) ∈ es := by
  unfold rowsFor
  rw [List.mem_map]
  constructor
  · rintro ⟨p, hpf, hpr⟩
    rw [List.mem_filter] at hpf
    obtain ⟨hpe, hpm⟩ := hpf
    have hm : p.2 = m := by simpa using hpm
    have : p = (r, m) := by
      cases p
      simp_all
    rw [← this]
    exact hpe
  · intro h
    refine ⟨(r, m), ?_, rfl⟩
    rw [List.mem_filter]
    exact ⟨h, by simp⟩

theorem le_getLast_of_pairwise_lt : ∀ {l : List Nat},
    l.Pairwise (fun a b => a < b) → ∀ {a b : Nat}, a ∈ l →
      l.getLast? = some b → a ≤ b
  | [], _, _, _, ha, _ => absurd ha (List.not_mem_nil _)
  | [x], _, a, b, ha, hb => by
    simp only [List.mem_singleton] at ha
    simp only [List.getLast?_singleton, Option.some.injEq] at hb
    omega
  | x :: y :: rest, hp, a, b, ha, hb => by
    rw [List.getLast?_cons_cons] at hb
    have hptail : (y :: rest).Pairwise (fun a b => a < b) :=
      (List.pairwise_cons.mp hp).2
    rcases List.mem_cons.mp ha with rfl | hatail
    · have hbmem : b ∈ y :: rest := by
        have hne : (y :: rest) ≠ [] := by simp
        rw [List.getLast?_eq_getLast _ hne] at hb
        injection hb with hb
        rw [← hb]
        exact List.getLast_mem hne
      have := (List.pairwise_cons.mp hp).1 b hbmem
      omega
    · exact le_getLast_of_pairwise_lt hptail hatail hb

theorem rowsFor_pairwise_lt (col : List String) (m : String) :
    (rowsFor (collectExisting col) m).Pairwise (fun a b => a < b) := by
  unfold rowsFor
  rw [List.pairwise_map]
  exact (collectAux_rows_pairwise _ 2).filter _

/-- C8: last-write-wins on duplicate months: if a row parses to month `m`,
the built index maps `m` to the largest (last-scanned) such row, which is
itself a row parsing to `m`; and the index holds at most one entry per
month (its keys are pairwise distinct). -/
theorem claim_C8_last_write_wins (col : List String) :
    (dictKeys (build_month_row_index col)).Nodup ∧
    ∀ m r, (r, m) ∈ collectExisting col →
      ∃ rmax, dictLookup (build_month_row_index col) m = some rmax ∧
        r ≤ rmax ∧ (rmax, m) ∈ collectExisting col := by
  refine ⟨build_keys_nodup col, ?_⟩
  intro m r hmem
  have hr : r ∈ rowsFor (collectExisting col) m := mem_rowsFor.mpr hmem
  have hne : rowsFor (collectExisting col) m ≠ [] := by
    intro hnil
    rw [hnil] at hr
    exact List.not_mem_nil r hr
  obtain ⟨rmax, hlast⟩ : ∃ rmax,
      (rowsFor (collectExisting col) m).getLast? = some rmax := by
    cases hL : (rowsFor (collectExisting col) m).getLast? with
    | none => exact absurd (List.getLast?_eq_none_iff.mp hL) hne
    | some rr => exact ⟨rr, rfl⟩
  refine ⟨rmax, by rw [dictLookup_build]; exact hlast, ?_, ?_⟩
  · exact le_getLast_of_pairwise_lt (rowsFor_pairwise_lt col m) hr hlast
  · have : rmax ∈ rowsFor (collectExisting col) m := by
      have hne2 : rowsFor (collectExisting col) m ≠ [] := hne
      rw [List.getLast?_eq_getLast _ hne2] at hlast
      injection hlast with hlast
      rw [← hlast]
      exact List.getLast_mem hne2
    exact mem_rowsFor.mp this

/-- Witness for C8 on a column that holds the same month in two rows
(`2025-01-01` at row 2 and `ianuarie 2025` at row 3): the index maps
`2025-01` to the later row 3. -/
theorem claim_C8_witness :
    ∃ rmax,
      dictLookup (build_month_row_index ["Luna", "2025-01-01", "ianuarie 2025"])
        "2025-01" = some rmax ∧ 2 ≤ rmax ∧
      (rmax, "2025-01") ∈
        collectExisting ["Luna", "2025-01-01", "ianuarie 2025"] :=
  (claim_C8_last_write_wins ["Luna", "2025-01-01", "ianuarie 2025"]).2
    "2025-01" 2 (by decide)

/-! ### Sorting lemmas -/

/-- The non-strict month order used by the working list: `p` precedes `q`
when `q`'s month is not strictly below `p`'s. -/
def leM (p q : Nat × String) : Prop := strLtS q.2 p.2 = false

theorem strLtS_false_trans {a b c : String} (h1 : strLtS b a = false)
    (h2 : strLtS c b = false) : strLtS c a = false := by
  by_contra h
  rw [Bool.not_eq_false] at h
  rcases strLtS_total b c with rfl | hbc | hcb
  · rw [h] at h1
    exact Bool.noConfusion h1
  · have := strLtS_trans hbc h
    rw [this] at h1
    exact Bool.noConfusion h1
  · rw [hcb] at h2
    exact Bool.noConfusion h2

theorem insMonth_perm (x : Nat × String) : ∀ l, (insMonth x l).Perm (x :: l)
  | [] => List.Perm.refl _
  | y :: ys => by
    unfold insMonth
    by_cases h : strLtS y.2 x.2 = true
    · rw [if_pos h]
      exact ((insMonth_perm x ys).cons y).trans (List.Perm.swap x y ys)
    · rw [if_neg h]

theorem sortByMonth_perm : ∀ l, (sortByMonth l).Perm l
  | [] => List.Perm.refl _
  | x :: xs =>
    (insMonth_perm x (sortByMonth xs)).trans ((sortByMonth_perm xs).cons x)

theorem insMonth_sorted {x : Nat × String} : ∀ {l : List (Nat × String)},
    l.Pairwise leM → (insMonth x l).Pairwise leM
  | [], _ => List.pairwise_singleton _ _
  | y :: ys, h => by
    obtain ⟨hy, hys⟩ := List.pairwise_cons.mp h
    unfold insMonth
    by_cases hlt : strLtS y.2 x.2 = true
    · rw [if_pos hlt]
      rw [List.pairwise_cons]
      refine ⟨?_, insMonth_sorted hys⟩
      intro z hz
      rcases List.mem_cons.mp (((insMonth_perm x ys).mem_iff).mp hz) with rfl | hzys
      · show strLtS z.2 y.2 = false
        by_contra hc
        rw [Bool.not_eq_false] at hc
        exact strLtS_asymm hlt hc
      · exact hy z hzys
    · rw [if_neg hlt]
      rw [List.pairwise_cons]
      refine ⟨?_, h⟩
      intro z hz
      rcases List.mem_cons.mp hz with rfl | hzys
      · show strLtS z.2 x.2 = false
        exact Bool.not_eq_true _ ▸ hlt
      · show strLtS z.2 x.2 = false
        have h1 : strLtS y.2 x.2 = false := by
          rw [← Bool.not_eq_true]
          exact hlt
        exact strLtS_false_trans h1 (hy z hzys)

theorem sortByMonth_sorted : ∀ l, (sortByMonth l).Pairwise leM
  | [] => List.Pairwise.nil
  | _ :: xs => insMonth_sorted (sortByMonth_sorted xs)

theorem sortByMonth_eq_self : ∀ {l : List (Nat × String)},
    l.Pairwise leM → sortByMonth l = l
  | [], _ => rfl
  | x :: xs, h => by
    obtain ⟨hx, hxs⟩ := List.pairwise_cons.mp h
    unfold sortByMonth
    rw [sortByMonth_eq_self hxs]
    cases xs with
    | nil => rfl
    | cons y ys =>
      unfold insMonth
      have hxy : strLtS y.2 x.2 = false := hx y (List.mem_cons_self y ys)
      rw [hxy]
      simp

theorem insStr_perm (x : String) : ∀ l, (insStr x l).Perm (x :: l)
  | [] => List.Perm.refl _
  | y :: ys => by
    unfold insStr
    by_cases h : strLtS y x = true
    · rw [if_pos h]
      exact ((insStr_perm x ys).cons y).trans (List.Perm.swap x y ys)
    · rw [if_neg h]

theorem sortStr_perm : ∀ l, (sortStr l).Perm l
  | [] => List.Perm.refl _
  | x :: xs => (insStr_perm x (sortStr xs)).trans ((sortStr_perm xs).cons x)

theorem dedup_mem : ∀ (l seen : List String) (x : String),
    x ∈ dedup seen l ↔ x ∈ l ∧ x ∉ seen
  | [], seen, x => by simp [dedup]
  | y :: ys, seen, x => by
    unfold dedup
    by_cases h : seen.contains y = true
    · rw [if_pos h]
      rw [dedup_mem ys seen x]
      constructor
      · intro ⟨h1, h2⟩
        exact ⟨List.mem_cons_of_mem y h1, h2⟩
      · intro ⟨h1, h2⟩
        rcases List.mem_cons.mp h1 with rfl | h3
        · exact absurd (show x ∈ seen by simpa using h) h2
        · exact ⟨h3, h2⟩
    · rw [if_neg h]
      constructor
      · intro hmem
        rcases List.mem_cons.mp hmem with rfl | h3
        · refine ⟨List.mem_cons_self x ys, ?_⟩
          intro hc
          exact h (by simpa using hc)
        · obtain ⟨h1, h2⟩ := (dedup_mem ys (y :: seen) x).mp h3
          refine ⟨List.mem_cons_of_mem y h1, ?_⟩
          intro hc
          exact h2 (List.mem_cons_of_mem y hc)
      · intro ⟨h1, h2⟩
        rcases List.mem_cons.mp h1 with rfl | h3
        · exact List.mem_cons_self x _
        · by_cases hxy : x = y
          · subst hxy
            exact List.mem_cons_self x _
          · refine List.mem_cons_of_mem y ((dedup_mem ys (y :: seen) x).mpr
              ⟨h3, ?_⟩)
            intro hc
            rcases List.mem_cons.mp hc with h4 | h4
            · exact hxy h4
            · exact h2 h4

theorem dedup_nodup : ∀ (l seen : List String), (dedup seen l).Nodup
  | [], _ => List.nodup_nil
  | y :: ys, seen => by
    unfold dedup
    by_cases h : seen.contains y = true
    · rw [if_pos h]
      exact dedup_nodup ys seen
    · rw [if_neg h]
      rw [List.nodup_cons]
      refine ⟨?_, dedup_nodup ys (y :: seen)⟩
      intro hc
      obtain ⟨-, h2⟩ := (dedup_mem ys (y :: seen) y).mp hc
      exact h2 (List.mem_cons_self y seen)

theorem sortedDedup_mem (months : List String) (x : String) :
    x ∈ sortedDedup months ↔ x ∈ months := by
  unfold sortedDedup
  rw [(sortStr_perm _).mem_iff, dedup_mem]
  simp

theorem sortedDedup_nodup (months : List String) :
    (sortedDedup months).Nodup := by
  unfold sortedDedup
  exact (sortStr_perm _).nodup_iff.mpr (dedup_nodup months [])

/-! ### Structural effect of a row insertion on the column scan -/

theorem insertRowAt_drop_one {col : List String} {pos : Nat} (v : String)
    (hpos : 2 ≤ pos) :
    (insertRowAt col pos v).drop 1 =
      (col.drop 1).take (pos - 2) ++
        List.replicate ((pos - 2) - (col.drop 1).length) "" ++
        v :: (col.drop 1).drop (pos - 2) := by
  obtain ⟨k, rfl⟩ : ∃ k, pos = k + 2 := ⟨pos - 2, by omega⟩
  cases col with
  | nil =>
    unfold insertRowAt
    simp only [List.take_nil, List.drop_nil, List.nil_append, List.length_nil,
      Nat.sub_zero]
    have h1 : k + 2 - 1 = k + 1 := by omega
    have h2 : k + 2 - 2 = k := by omega
    rw [h1, h2, List.replicate_succ]
    rfl
  | cons hd tl =>
    unfold insertRowAt
    have h1 : k + 2 - 1 = k + 1 := by omega
    have h2 : k + 2 - 2 = k := by omega
    rw [h1, h2]
    simp only [List.take_succ_cons, List.drop_succ_cons, List.drop_one,
      List.tail_cons, List.length_cons]
    have h3 : k + 1 - (tl.length + 1) = k - tl.length := by omega
    rw [h3]
    rfl

theorem collectAux_insertPad (xs : List String) (k : Nat) (v m : String)
    (hv : parse_month_cell_to_yyyymm v = some m) (i : Nat) :
    collectAux i
        (xs.take k ++ List.replicate (k - xs.length) "" ++ v :: xs.drop k) =
      collectAux i (xs.take k) ++ (i + k, m) ::
        (collectAux (i + k) (xs.drop k)).map rowShift := by
  rw [collectAux_append, collectAux_append, collectAux_replicate_empty]
  simp only [List.append_nil, List.length_append, List.length_take,
    List.length_replicate]
  have hk : min k xs.length + (k - xs.length) = k := by omega
  rw [hk]
  congr 1
  show collectAux (i + k) (v :: xs.drop k) = _
  simp only [collectAux, hv]
  rw [collectAux_shift]

theorem collectExisting_insertRowAt {col : List String} {pos : Nat}
    {v m : String} (hpos : 2 ≤ pos)
    (hv : parse_month_cell_to_yyyymm v = some m) :
    collectExisting (insertRowAt col pos v) =
      collectAux 2 ((col.drop 1).take (pos - 2)) ++ (pos, m) ::
        (collectAux pos ((col.drop 1).drop (pos - 2))).map rowShift := by
  unfold collectExisting
  rw [insertRowAt_drop_one v hpos, collectAux_insertPad _ _ _ _ hv 2]
  have h1 : 2 + (pos - 2) = pos := by omega
  rw [h1]

theorem collectExisting_split (col : List String) (k : Nat) :
    collectExisting col =
      collectAux 2 ((col.drop 1).take k) ++
        collectAux (2 + k) ((col.drop 1).drop k) := by
  by_cases h : k ≤ (col.drop 1).length
  · unfold collectExisting
    conv_lhs => rw [show col.drop 1 =
      (col.drop 1).take k ++ (col.drop 1).drop k from
        (List.take_append_drop k _).symm]
    rw [collectAux_append]
    congr 2
    rw [List.length_take]
    omega
  · have hdrop : (col.drop 1).drop k = [] := by
      rw [List.drop_eq_nil_iff]
      omega
    have htake : (col.drop 1).take k = col.drop 1 := by
      rw [List.take_of_length_le]
      omega
    rw [hdrop, htake]
    simp [collectAux, collectExisting]

/-! ### The insertion loop: position bounds and the bookkeeping invariant -/

theorem find?_prefix_first {α : Type} (pred : α → Bool) :
    ∀ (pre : List α) (p : α) (suf : List α), (∀ q ∈ pre, pred q = false) →
      pred p = true → (pre ++ p :: suf).find? pred = some p
  | [], p, suf, _, hp => by simp [List.find?_cons, hp]
  | q :: pre, p, suf, hpre, hp => by
    rw [List.cons_append, List.find?_cons,
      hpre q (List.mem_cons_self q pre)]
    exact find?_prefix_first pred pre p suf
      (fun x hx => hpre x (List.mem_cons_of_mem q hx)) hp

theorem insert_row_index_ge_two {es : List (Nat × String)} {m : String}
    (h : ∀ p ∈ es, 2 ≤ p.1) : 2 ≤ insert_row_index_for_month es m := by
  unfold insert_row_index_for_month
  cases hf : es.find? (fun p => strLtS m p.2) with
  | some p => exact h p (List.mem_of_find?_eq_some hf)
  | none =>
    cases hl : es.getLast? with
    | some p =>
      show 2 ≤ p.1 + 1
      have hne : es ≠ [] := by
        intro hnil
        rw [hnil] at hl
        exact Option.noConfusion hl
      rw [List.getLast?_eq_getLast es hne] at hl
      injection hl with hl
      have := h (es.getLast hne) (List.getLast_mem hne)
      rw [← hl]
      omega
    | none =>
      show (2 : Nat) ≤ 2
      omega

theorem shiftEntry_snd (pos : Nat) (p : Nat × String) :
    (shiftEntry pos p).2 = p.2 := by
  unfold shiftEntry
  split <;> rfl

theorem shiftEntry_row_ge {pos : Nat} {p : Nat × String} (h : 2 ≤ p.1) :
    2 ≤ (shiftEntry pos p).1 := by
  unfold shiftEntry
  split
  · show 2 ≤ p.1 + 1
    omega
  · exact h

theorem es_step_rows {es : List (Nat × String)} {pos : Nat} {m : String}
    (h : ∀ p ∈ es, 2 ≤ p.1) (hpos : 2 ≤ pos) :
    ∀ p ∈ sortByMonth (es.map (shiftEntry pos) ++ [(pos, m)]), 2 ≤ p.1 := by
  intro p hp
  have hp2 := (sortByMonth_perm _).mem_iff.mp hp
  rcases List.mem_append.mp hp2 with hmap | hsing
  · obtain ⟨q, hq, rfl⟩ := List.mem_map.mp hmap
    exact shiftEntry_row_ge (h q hq)
  · rw [List.mem_singleton] at hsing
    rw [hsing]
    exact hpos

/-- One loop step rewrites `collectExisting` of the new column as the old
entries (shifted past the insertion point) plus the new `(pos, m)` entry,
provided the inserted cell `m ++ "-01"` parses back to `m`. -/
theorem step_perm {col : List String} {es : List (Nat × String)} {m : String}
    (hv : parse_month_cell_to_yyyymm (m ++ "-01") = some m)
    (hrows : ∀ p ∈ es, 2 ≤ p.1)
    (hperm : es.Perm (collectExisting col)) :
    (sortByMonth
        ((es.map (shiftEntry (insert_row_index_for_month es m))) ++
          [(insert_row_index_for_month es m, m)])).Perm
      (collectExisting
        (insertRowAt col (insert_row_index_for_month es m) (m ++ "-01"))) := by
  set pos := insert_row_index_for_month es m with hposdef
  have hpos : 2 ≤ pos := insert_row_index_ge_two hrows
  have hstruct := @collectExisting_insertRowAt col _ _ _ hpos hv
  set P1 := collectAux 2 ((col.drop 1).take (pos - 2)) with hP1
  set P2 := collectAux pos ((col.drop 1).drop (pos - 2)) with hP2
  have hsplit : collectExisting col = P1 ++ P2 := by
    have := collectExisting_split col (pos - 2)
    rw [show 2 + (pos - 2) = pos by omega] at this
    exact this
  have hmap : (es.map (shiftEntry pos)).Perm (P1 ++ P2.map rowShift) := by
    have h1 : (es.map (shiftEntry pos)).Perm
        ((collectExisting col).map (shiftEntry pos)) := hperm.map _
    rw [hsplit, List.map_append] at h1
    have hP1map : P1.map (shiftEntry pos) = P1 := by
      have hid : P1.map (shiftEntry pos) = P1.map id := by
        apply List.map_congr_left
        intro p hp
        have hb := collectAux_bounds _ _ _ hp
        have hlen : ((col.drop 1).take (pos - 2)).length ≤ pos - 2 := by
          rw [List.length_take]
          omega
        unfold shiftEntry
        rw [if_neg (by omega)]
        rfl
      rw [hid, List.map_id]
    have hP2map : P2.map (shiftEntry pos) = P2.map rowShift := by
      apply List.map_congr_left
      intro p hp
      have hb := collectAux_bounds _ _ _ hp
      unfold shiftEntry rowShift
      rw [if_pos (by omega)]
    rw [hP1map, hP2map] at h1
    exact h1
  have hchain : ((es.map (shiftEntry pos)) ++ [(pos, m)]).Perm
      (P1 ++ (pos, m) :: P2.map rowShift) :=
    (hmap.append_right [(pos, m)]).trans
      ((List.perm_append_singleton _ _).trans List.perm_middle.symm)
  rw [hstruct]
  exact (sortByMonth_perm _).trans hchain

/-- The bookkeeping invariant of the insertion loop: when every inserted
month round-trips through the parser, the working list stays a permutation
of the freshly scanned column, with all rows at or below row 2. -/
theorem ensureLoop_invariant : ∀ (ms : List String) (col : List String)
    (es : List (Nat × String)),
    (∀ m ∈ ms, isMonthKeyStr m = true) →
    (∀ p ∈ es, 2 ≤ p.1) →
    es.Perm (collectExisting col) →
    (ensureLoop col es ms).2.Perm
        (collectExisting (ensureLoop col es ms).1) ∧
      (∀ p ∈ (ensureLoop col es ms).2, 2 ≤ p.1)
  | [], col, es, _, hrows, hperm => ⟨hperm, hrows⟩
  | m :: rest, col, es, hcanon, hrows, hperm => by
    have hv : parse_month_cell_to_yyyymm (m ++ "-01") = some m :=
      parse_roundtrip_monthKey (hcanon m (List.mem_cons_self m rest))
    have hpos : 2 ≤ insert_row_index_for_month es m :=
      insert_row_index_ge_two hrows
    have hstep := step_perm hv hrows hperm
    have hrows' := @es_step_rows es _ m hrows hpos
    have := ensureLoop_invariant rest
      (insertRowAt col (insert_row_index_for_month es m) (m ++ "-01"))
      (sortByMonth ((es.map (shiftEntry (insert_row_index_for_month es m))) ++
        [(insert_row_index_for_month es m, m)]))
      (fun m' hm' => hcanon m' (List.mem_cons_of_mem m hm'))
      hrows' hstep
    exact this

/-! ### Claim C2: idempotence of `ensure_month_rows` -/

theorem ensureLoop_month_mem : ∀ (ms : List String) (col : List String)
    (es : List (Nat × String)) (m : String), (∃ p ∈ es, p.2 = m) →
    ∃ p ∈ (ensureLoop col es ms).2, p.2 = m
  | [], _, _, _, h => h
  | m' :: rest, col, es, m, ⟨p, hp, hpm⟩ => by
    apply ensureLoop_month_mem rest
    refine ⟨shiftEntry (insert_row_index_for_month es m') p, ?_, ?_⟩
    · apply (sortByMonth_perm _).mem_iff.mpr
      exact List.mem_append.mpr (Or.inl (List.mem_map.mpr ⟨p, hp, rfl⟩))
    · rw [shiftEntry_snd]
      exact hpm

theorem ensureLoop_covers : ∀ (ms : List String) (col : List String)
    (es : List (Nat × String)), ∀ m ∈ ms,
    ∃ p ∈ (ensureLoop col es ms).2, p.2 = m
  | [], _, _, m, hm => absurd hm (List.not_mem_nil m)
  | m' :: rest, col, es, m, hm => by
    rcases List.mem_cons.mp hm with rfl | hm2
    · apply ensureLoop_month_mem rest
      refine ⟨(insert_row_index_for_month es m, m), ?_, rfl⟩
      apply (sortByMonth_perm _).mem_iff.mpr
      exact List.mem_append.mpr (Or.inr (List.mem_singleton.mpr rfl))
    · exact ensureLoop_covers rest _ _ m hm2

theorem ensure_eq_empty {col : List String} {months : List String}
    (h : months.isEmpty = true) :
    ensure_month_rows col months = (col, build_month_row_index col) := by
  unfold ensure_month_rows
  rw [if_pos h]

theorem ensure_eq_nomissing {col : List String} {months : List String}
    (h1 : months.isEmpty = false) (h2 : (missingOf col months).isEmpty = true) :
    ensure_month_rows col months = (col, build_month_row_index col) := by
  unfold ensure_month_rows
  simp [h1, h2]

theorem ensure_eq_loop {col : List String} {months : List String}
    (h1 : months.isEmpty = false)
    (h2 : (missingOf col months).isEmpty = false) :
    ensure_month_rows col months =
      ((ensureLoop col (sortByMonth (collectExisting col))
          (missingOf col months)).1,
        build_month_row_index
          (ensureLoop col (sortByMonth (collectExisting col))
            (missingOf col months)).1) := by
  unfold ensure_month_rows
  simp [h1, h2]

theorem missingOf_canon {col : List String} {months : List String}
    (hcanon : ∀ m ∈ months, isMonthKeyStr m = true) :
    ∀ m ∈ missingOf col months, isMonthKeyStr m = true := by
  intro m hm
  unfold missingOf at hm
  have := List.mem_of_mem_filter hm
  exact hcanon m ((sortedDedup_mem months m).mp this)

theorem es0_rows (col : List String) :
    ∀ p ∈ sortByMonth (collectExisting col), 2 ≤ p.1 := by
  intro p hp
  have := (sortByMonth_perm _).mem_iff.mp hp
  exact (collectAux_bounds _ _ _ this).1

/-- After a reconciliation run, every requested month has a row whose cell
parses to it. -/
theorem ensure_covered {col : List String} {months : List String}
    (hcanon : ∀ m ∈ months, isMonthKeyStr m = true) :
    ∀ m ∈ sortedDedup months,
      ∃ p ∈ collectExisting (ensure_month_rows col months).1, p.2 = m := by
  intro m hm
  have hmonths : m ∈ months := (sortedDedup_mem months m).mp hm
  have hne : months.isEmpty = false := by
    cases months with
    | nil => exact absurd hmonths (List.not_mem_nil m)
    | cons x xs => rfl
  by_cases hmiss : (missingOf col months).isEmpty = true
  · rw [ensure_eq_nomissing hne hmiss]
    have hnil : missingOf col months = [] := by
      cases h : missingOf col months with
      | nil => rfl
      | cons x xs => rw [h] at hmiss; exact Bool.noConfusion hmiss
    unfold missingOf at hnil
    rw [List.filter_eq_nil_iff] at hnil
    have := hnil m hm
    simp only [Bool.not_eq_true', Bool.not_eq_false] at this
    rw [List.any_eq_true] at this
    obtain ⟨p, hp, hpm⟩ := this
    exact ⟨p, hp, by simpa using hpm⟩
  · have hmiss' : (missingOf col months).isEmpty = false := by
      cases h : (missingOf col months).isEmpty
      · rfl
      · exact absurd h hmiss
    rw [ensure_eq_loop hne hmiss']
    have hinv := ensureLoop_invariant (missingOf col months) col
      (sortByMonth (collectExisting col)) (missingOf_canon hcanon)
      (es0_rows col) (sortByMonth_perm _)
    by_cases hmem : m ∈ missingOf col months
    · obtain ⟨p, hp, hpm⟩ := ensureLoop_covers (missingOf col months) col
        (sortByMonth (collectExisting col)) m hmem
      exact ⟨p, hinv.1.mem_iff.mp hp, hpm⟩
    · have hany : (collectExisting col).any (fun p => p.2 = m) = true := by
        by_contra hc
        apply hmem
        unfold missingOf
        rw [List.mem_filter]
        refine ⟨hm, ?_⟩
        simp only [Bool.not_eq_true] at hc
        rw [hc]
        rfl
      rw [List.any_eq_true] at hany
      obtain ⟨p, hp, hpm⟩ := hany
      have hp0 : p ∈ sortByMonth (collectExisting col) :=
        (sortByMonth_perm _).mem_iff.mpr hp
      obtain ⟨q, hq, hqm⟩ := ensureLoop_month_mem (missingOf col months) col
        (sortByMonth (collectExisting col)) m ⟨p, hp0, by simpa using hpm⟩
      exact ⟨q, hinv.1.mem_iff.mp hq, hqm⟩

/-- C2: `ensure_month_rows` is idempotent on canonical month keys: a second
call with the same target set leaves the sheet unchanged, computes an
empty missing set, and returns the same index as the first call. -/
theorem claim_C2_idempotent (col : List String) (months : List String)
    (hcanon : ∀ m ∈ months, isMonthKeyStr m = true) :
    missingOf (ensure_month_rows col months).1 months = [] ∧
    (ensure_month_rows (ensure_month_rows col months).1 months).1 =
      (ensure_month_rows col months).1 ∧
    (ensure_month_rows (ensure_month_rows col months).1 months).2 =
      (ensure_month_rows col months).2 := by
  have hmiss2 : missingOf (ensure_month_rows col months).1 months = [] := by
    unfold missingOf
    rw [List.filter_eq_nil_iff]
    intro m hm
    obtain ⟨p, hp, hpm⟩ := ensure_covered hcanon m hm
    simp only [Bool.not_eq_true', Bool.not_eq_false]
    rw [List.any_eq_true]
    exact ⟨p, hp, by simpa using hpm⟩
  refine ⟨hmiss2, ?_⟩
  by_cases hne : months.isEmpty = true
  · rw [ensure_eq_empty hne, ensure_eq_empty hne]
    exact ⟨rfl, rfl⟩
  · have hne' : months.isEmpty = false := by
      cases h : months.isEmpty
      · rfl
      · exact absurd h hne
    have hsecond : ensure_month_rows (ensure_month_rows col months).1 months =
        ((ensure_month_rows col months).1,
          build_month_row_index (ensure_month_rows col months).1) :=
      ensure_eq_nomissing hne' (by rw [hmiss2]; rfl)
    rw [hsecond]
    refine ⟨rfl, ?_⟩
    by_cases hmiss : (missingOf col months).isEmpty = true
    · rw [ensure_eq_nomissing hne' hmiss]
    · have hmiss' : (missingOf col months).isEmpty = false := by
        cases h : (missingOf col months).isEmpty
        · rfl
        · exact absurd h hmiss
      rw [ensure_eq_loop hne' hmiss']

/-- Witness for C2 at a concrete sheet and target list. -/
theorem claim_C2_witness :
    missingOf (ensure_month_rows ["Luna", "2025-01-01"]
        ["2025-03", "2025-02"]).1 ["2025-03", "2025-02"] = [] ∧
    (ensure_month_rows (ensure_month_rows ["Luna", "2025-01-01"]
        ["2025-03", "2025-02"]).1 ["2025-03", "2025-02"]).1 =
      (ensure_month_rows ["Luna", "2025-01-01"] ["2025-03", "2025-02"]).1 ∧
    (ensure_month_rows (ensure_month_rows ["Luna", "2025-01-01"]
        ["2025-03", "2025-02"]).1 ["2025-03", "2025-02"]).2 =
      (ensure_month_rows ["Luna", "2025-01-01"] ["2025-03", "2025-02"]).2 :=
  claim_C2_idempotent ["Luna", "2025-01-01"] ["2025-03", "2025-02"]
    (by decide)

/-! ### Claim C10: the working list agrees with the final re-read -/

/-- The month-to-row map derived from the in-memory working list: the
highest tracked row per month (none when the month is untracked). -/
def workingMap (es : List (Nat × String)) (k : String) : Option Nat :=
  if (rowsFor es k).isEmpty then none
  else some ((rowsFor es k).foldl Nat.max 0)

theorem foldl_max_perm {l1 l2 : List Nat} (h : l1.Perm l2) :
    ∀ a : Nat, l1.foldl Nat.max a = l2.foldl Nat.max a := by
  induction h with
  | nil => intro a; rfl
  | cons x h ih =>
    intro a
    simp only [List.foldl_cons]
    exact ih _
  | swap x y l =>
    intro a
    simp only [List.foldl_cons]
    congr 1
    exact (Nat.max_assoc a y x).trans
      ((congrArg (Nat.max a) (Nat.max_comm y x)).trans (Nat.max_assoc a x y).symm)
  | trans h1 h2 ih1 ih2 =>
    intro a
    rw [ih1 a, ih2 a]

theorem foldl_max_init_le : ∀ (l : List Nat) (c : Nat), c ≤ l.foldl Nat.max c
  | [], _ => Nat.le_refl _
  | x :: xs, c => by
    simp only [List.foldl_cons]
    exact Nat.le_trans (Nat.le_max_left c x) (foldl_max_init_le xs _)

theorem le_foldl_max : ∀ (l : List Nat) (a c : Nat), a ∈ l →
    a ≤ l.foldl Nat.max c
  | [], a, c, h => absurd h (List.not_mem_nil a)
  | x :: xs, a, c, h => by
    simp only [List.foldl_cons]
    rcases List.mem_cons.mp h with rfl | h2
    · exact Nat.le_trans (Nat.le_max_right c a) (foldl_max_init_le xs _)
    · exact le_foldl_max xs a _ h2

theorem foldl_max_le : ∀ (l : List Nat) (b c : Nat), (∀ a ∈ l, a ≤ b) →
    c ≤ b → l.foldl Nat.max c ≤ b
  | [], _, _, _, hc => hc
  | x :: xs, b, c, h, hc => by
    simp only [List.foldl_cons]
    refine foldl_max_le xs b _ (fun a ha => h a (List.mem_cons_of_mem x ha)) ?_
    have := h x (List.mem_cons_self x xs)
    exact Nat.max_le.mpr ⟨hc, this⟩

theorem getLast?_eq_foldl_max {l : List Nat}
    (hp : l.Pairwise (fun a b => a < b)) (hne : l ≠ []) :
    l.getLast? = some (l.foldl Nat.max 0) := by
  rw [List.getLast?_eq_getLast l hne]
  congr 1
  have hlast_mem := List.getLast_mem hne
  have hle : ∀ a ∈ l, a ≤ l.getLast hne := fun a ha =>
    le_getLast_of_pairwise_lt hp ha (List.getLast?_eq_getLast l hne)
  exact Nat.le_antisymm (le_foldl_max l _ 0 hlast_mem)
    (foldl_max_le l _ 0 hle (Nat.zero_le _))

/-- C10: assuming structural insertion shifts rows at or below the
insertion point (as `insertRowAt` does) and every target month is a
canonical `YYYY-MM` string, after the insertion loop the month-to-row map
derived from the in-memory working list (highest row per month) agrees
with the ground-truth index rebuilt by the final `build_month_row_index`
re-read. -/
theorem claim_C10_working_list_agrees (col : List String)
    (months : List String)
    (hcanon : ∀ m ∈ months, isMonthKeyStr m = true) :
    ∀ k, workingMap
        (ensureLoop col (sortByMonth (collectExisting col))
          (missingOf col months)).2 k =
      dictLookup (build_month_row_index
        (ensureLoop col (sortByMonth (collectExisting col))
          (missingOf col months)).1) k := by
  intro k
  have hinv := ensureLoop_invariant (missingOf col months) col
    (sortByMonth (collectExisting col)) (missingOf_canon hcanon)
    (es0_rows col) (sortByMonth_perm _)
  have hperm : (rowsFor (ensureLoop col (sortByMonth (collectExisting col))
      (missingOf col months)).2 k).Perm
      (rowsFor (collectExisting (ensureLoop col
        (sortByMonth (collectExisting col)) (missingOf col months)).1) k) :=
    (hinv.1.filter _).map _
  rw [dictLookup_build]
  unfold workingMap
  by_cases hemp : (rowsFor (ensureLoop col (sortByMonth (collectExisting col))
      (missingOf col months)).2 k).isEmpty = true
  · rw [if_pos hemp]
    have hnil : rowsFor (ensureLoop col (sortByMonth (collectExisting col))
        (missingOf col months)).2 k = [] := by
      cases h : rowsFor (ensureLoop col (sortByMonth (collectExisting col))
          (missingOf col months)).2 k with
      | nil => rfl
      | cons x xs =>
        rw [h] at hemp
        exact Bool.noConfusion hemp
    rw [hnil] at hperm
    rw [hperm.symm.eq_nil]
    rfl
  · rw [if_neg hemp]
    have hne : rowsFor (ensureLoop col (sortByMonth (collectExisting col))
        (missingOf col months)).2 k ≠ [] := by
      intro hnil
      rw [hnil] at hemp
      exact hemp rfl
    have hne2 : rowsFor (collectExisting (ensureLoop col
        (sortByMonth (collectExisting col)) (missingOf col months)).1) k ≠
          [] := by
      intro hnil
      rw [hnil] at hperm
      exact hne hperm.eq_nil
    rw [getLast?_eq_foldl_max (rowsFor_pairwise_lt _ k) hne2]
    rw [foldl_max_perm hperm 0]

/-- Witness for C10 at a concrete sheet and target list. -/
theorem claim_C10_witness :
    workingMap
        (ensureLoop ["Luna", "2025-03-01"]
          (sortByMonth (collectExisting ["Luna", "2025-03-01"]))
          (missingOf ["Luna", "2025-03-01"] ["2025-01"])).2 "2025-01" =
      dictLookup (build_month_row_index
        (ensureLoop ["Luna", "2025-03-01"]
          (sortByMonth (collectExisting ["Luna", "2025-03-01"]))
          (missingOf ["Luna", "2025-03-01"] ["2025-01"])).1) "2025-01" :=
  claim_C10_working_list_agrees ["Luna", "2025-03-01"] ["2025-01"]
    (by decide) "2025-01"

/-! ### Claim C1: insertion positions -/

/-- C1: a missing month is inserted at the row of the first working-list
entry whose month strictly exceeds it; with no such entry, one past the
last entry's row; with an empty working list, at row 2.  The loop performs
the structural insertion at exactly that position, and the two concrete
scenarios of the spec hold. -/
theorem claim_C1_insertion_position :
    (∀ (es : List (Nat × String)) (m : String) (pre : List (Nat × String))
        (p : Nat × String) (suf : List (Nat × String)),
      es = pre ++ p :: suf → (∀ q ∈ pre, strLtS m q.2 = false) →
      strLtS m p.2 = true → insert_row_index_for_month es m = p.1) ∧
    (∀ (es : List (Nat × String)) (m : String) (hne : es ≠ []),
      (∀ q ∈ es, strLtS m q.2 = false) →
      insert_row_index_for_month es m = (es.getLast hne).1 + 1) ∧
    (∀ m : String, insert_row_index_for_month [] m = 2) ∧
    (∀ (col : List String) (es : List (Nat × String)) (m : String)
        (rest : List String),
      ensureLoop col es (m :: rest) =
        ensureLoop
          (insertRowAt col (insert_row_index_for_month es m) (m ++ "-01"))
          (sortByMonth ((es.map (shiftEntry (insert_row_index_for_month es m)))
            ++ [(insert_row_index_for_month es m, m)])) rest) ∧
    ensure_month_rows ["Luna", "2025-01-01", "2025-03-01"] ["2025-02"] =
      (["Luna", "2025-01-01", "2025-02-01", "2025-03-01"],
        [("2025-01", 2), ("2025-02", 3), ("2025-03", 4)]) ∧
    ensure_month_rows ["Luna"] ["2025-06"] =
      (["Luna", "2025-06-01"], [("2025-06", 2)]) := by
  refine ⟨?_, ?_, ?_, ?_, by decide, by decide⟩
  · intro es m pre p suf heq hpre hp
    subst heq
    unfold insert_row_index_for_month
    rw [find?_prefix_first _ pre p suf hpre hp]
  · intro es m hne h
    unfold insert_row_index_for_month
    rw [List.find?_eq_none.mpr (fun q hq => by rw [h q hq]; simp),
      List.getLast?_eq_getLast es hne]
  · intro m
    rfl
  · intro col es m rest
    rfl

/-- Witness for C1: with working list
`[(2, 2025-01), (3, 2025-03)]`, month `2025-02` goes to row 3. -/
theorem claim_C1_witness :
    insert_row_index_for_month [(2, "2025-01"), (3, "2025-03")] "2025-02" =
      3 :=
  claim_C1_insertion_position.1 [(2, "2025-01"), (3, "2025-03")] "2025-02"
    [(2, "2025-01")] (3, "2025-03") [] rfl (by decide) (by decide)

/-! ### Claim C9: the header row is never parsed -/

theorem mem_of_getLast? {α : Type} {l : List α} {a : α}
    (h : l.getLast? = some a) : a ∈ l := by
  have hne : l ≠ [] := by
    intro hnil
    rw [hnil] at h
    exact Option.noConfusion h
  rw [List.getLast?_eq_getLast l hne] at h
  injection h with h
  rw [← h]
  exact List.getLast_mem hne

theorem insertRowAt_cons {x : String} {xs : List String} {pos : Nat}
    (h : 2 ≤ pos) (u : String) :
    insertRowAt (x :: xs) pos u = x :: insertRowAt xs (pos - 1) u := by
  obtain ⟨k, rfl⟩ : ∃ k, pos = k + 2 := ⟨pos - 2, by omega⟩
  unfold insertRowAt
  have h1 : k + 2 - 1 = k + 1 := by omega
  have h2 : k + 2 - 1 - (x :: xs).length = k + 1 - 1 - xs.length := by
    simp only [List.length_cons]
    omega
  rw [h1]
  simp only [List.take_succ_cons, List.drop_succ_cons, List.length_cons]
  have h3 : k + 1 - (xs.length + 1) = k + 1 - 1 - xs.length := by omega
  rw [h3]
  rfl

theorem ensureLoop_head : ∀ (ms : List String) (xs : List String)
    (es : List (Nat × String)) (x y : String), (∀ p ∈ es, 2 ≤ p.1) →
    (ensureLoop (x :: xs) es ms).1.drop 1 =
        (ensureLoop (y :: xs) es ms).1.drop 1 ∧
      (ensureLoop (x :: xs) es ms).1.head? = some x ∧
      (ensureLoop (x :: xs) es ms).2 = (ensureLoop (y :: xs) es ms).2
  | [], xs, es, x, y, _ => ⟨rfl, rfl, rfl⟩
  | m :: rest, xs, es, x, y, h => by
    have hpos : 2 ≤ insert_row_index_for_month es m :=
      insert_row_index_ge_two h
    have hrows' := @es_step_rows es _ m h hpos
    simp only [ensureLoop]
    rw [insertRowAt_cons hpos (m ++ "-01")]
    rw [insertRowAt_cons hpos (m ++ "-01")]
    exact ensureLoop_head rest (insertRowAt xs
      (insert_row_index_for_month es m - 1) (m ++ "-01"))
      (sortByMonth ((es.map (shiftEntry (insert_row_index_for_month es m))) ++
        [(insert_row_index_for_month es m, m)])) x y hrows'

/-- C9: row 1 never contributes to the index, is never counted as an
existing month row by `ensure_month_rows`, and every indexed row is at
least 2, regardless of the header cell's content. -/
theorem claim_C9_skip_header (v w : String) (rest months : List String) :
    collectExisting (v :: rest) = collectExisting (w :: rest) ∧
    build_month_row_index (v :: rest) = build_month_row_index (w :: rest) ∧
    (∀ m r, dictLookup (build_month_row_index (v :: rest)) m = some r →
      2 ≤ r) ∧
    (ensure_month_rows (v :: rest) months).2 =
      (ensure_month_rows (w :: rest) months).2 ∧
    (ensure_month_rows (v :: rest) months).1.drop 1 =
      (ensure_month_rows (w :: rest) months).1.drop 1 ∧
    (ensure_month_rows (v :: rest) months).1.head? = some v := by
  have hbound : ∀ m r, dictLookup (build_month_row_index (v :: rest)) m =
      some r → 2 ≤ r := by
    intro m r h
    rw [dictLookup_build] at h
    have hmem := mem_rowsFor.mp (mem_of_getLast? h)
    exact (collectAux_bounds _ _ _ hmem).1
  by_cases hne : months.isEmpty = true
  · rw [ensure_eq_empty hne, ensure_eq_empty hne]
    exact ⟨rfl, rfl, hbound, rfl, rfl, rfl⟩
  · have hne' : months.isEmpty = false := by
      cases h : months.isEmpty
      · rfl
      · exact absurd h hne
    have hmisseq : missingOf (v :: rest) months = missingOf (w :: rest) months :=
      rfl
    by_cases hmiss : (missingOf (v :: rest) months).isEmpty = true
    · rw [ensure_eq_nomissing hne' hmiss,
        ensure_eq_nomissing hne' (hmisseq ▸ hmiss)]
      exact ⟨rfl, rfl, hbound, rfl, rfl, rfl⟩
    · have hmiss' : (missingOf (v :: rest) months).isEmpty = false := by
        cases h : (missingOf (v :: rest) months).isEmpty
        · rfl
        · exact absurd h hmiss
      rw [ensure_eq_loop hne' hmiss', ensure_eq_loop hne' (hmisseq ▸ hmiss')]
      have hhead := ensureLoop_head (missingOf (v :: rest) months) rest
        (sortByMonth (collectExisting (v :: rest))) v w
        (es0_rows (v :: rest))
      obtain ⟨hdrop, hheadv, hes⟩ := hhead
      refine ⟨rfl, rfl, hbound, ?_, hdrop, hheadv⟩
      show build_month_row_index _ = build_month_row_index _
      unfold build_month_row_index
      rw [hdrop]
      rfl

/-- Witness for C9: the bound conjunct applied at a concrete indexed
month, and the head preservation at a concrete sheet. -/
theorem claim_C9_witness :
    (2 : Nat) ≤ 2 ∧
      (ensure_month_rows ["Header", "2025-01-01"] ["2025-02"]).1.head? =
        some "Header" :=
  ⟨(claim_C9_skip_header "Header" "x" ["2025-01-01"] ["2025-02"]).2.2.1
      "2025-01" 2 (by decide),
    (claim_C9_skip_header "Header" "x" ["2025-01-01"] ["2025-02"]).2.2.2.2.2⟩

/-! ### Claim C5: chronological order of the index -/

/-- Months determine row order: any two tracked entries with strictly
ordered months have strictly ordered rows. -/
def entP (es : List (Nat × String)) : Prop :=
  ∀ p ∈ es, ∀ q ∈ es, strLtS p.2 q.2 = true → p.1 < q.1

theorem entP_of_sorted {es : List (Nat × String)}
    (hm : es.Pairwise (fun p q => strLtS p.2 q.2 = true))
    (hr : es.Pairwise (fun p q => p.1 < q.1)) : entP es := by
  intro p hp q hq hlt
  obtain ⟨i, hi, hpi⟩ := List.mem_iff_getElem.mp hp
  obtain ⟨j, hj, hqj⟩ := List.mem_iff_getElem.mp hq
  rcases Nat.lt_trichotomy i j with hij | rfl | hji
  · exact hpi ▸ hqj ▸ (List.pairwise_iff_getElem.mp hr i j hi hj hij)
  · rw [hpi] at hqj
    subst hqj
    rw [strLtS_irrefl] at hlt
    exact Bool.noConfusion hlt
  · have := List.pairwise_iff_getElem.mp hm j i hj hi hji
    rw [hqj, hpi] at this
    exact (strLtS_asymm hlt this).elim

theorem entP_perm {es es' : List (Nat × String)} (h : es.Perm es')
    (hP : entP es) : entP es' := fun p hp q hq hlt =>
  hP p (h.mem_iff.mpr hp) q (h.mem_iff.mpr hq) hlt

theorem find?_decomp {α : Type} {pred : α → Bool} : ∀ {l : List α} {a : α},
    l.find? pred = some a →
      ∃ l1 l2, l = l1 ++ a :: l2 ∧ ∀ x ∈ l1, pred x = false
  | [], a, h => by simp [List.find?] at h
  | x :: xs, a, h => by
    rw [List.find?_cons] at h
    by_cases hx : pred x = true
    · simp only [hx] at h
      injection h with h
      subst h
      exact ⟨[], xs, rfl, by simp⟩
    · rw [Bool.not_eq_true] at hx
      simp only [hx] at h
      obtain ⟨l1, l2, heq, hall⟩ := find?_decomp h
      refine ⟨x :: l1, l2, by rw [heq, List.cons_append], ?_⟩
      intro z hz
      rcases List.mem_cons.mp hz with rfl | hz2
      · exact Bool.not_eq_true _ ▸ hx
      · exact hall z hz2

theorem pairwise_getLast_le : ∀ {es : List (Nat × String)},
    es.Pairwise leM → ∀ {last : Nat × String}, es.getLast? = some last →
      ∀ q ∈ es, q = last ∨ leM q last
  | [], _, last, hl, _, hq => absurd hq (List.not_mem_nil _)
  | [x], _, last, hl, q, hq => by
    simp only [List.getLast?_singleton, Option.some.injEq] at hl
    rw [List.mem_singleton] at hq
    subst hq
    exact Or.inl hl

  | x :: y :: rest, h, last, hl, q, hq => by
    rw [List.getLast?_cons_cons] at hl
    obtain ⟨hx, htail⟩ := List.pairwise_cons.mp h
    rcases List.mem_cons.mp hq with rfl | hq2
    · exact Or.inr (hx last (mem_of_getLast? hl))
    · exact pairwise_getLast_le htail hl q hq2

theorem rows_le_getLast {es : List (Nat × String)}
    (hI1 : es.Pairwise leM)
    (hne2 : es.Pairwise (fun p q => p.2 ≠ q.2)) (hP : entP es)
    {last : Nat × String} (hl : es.getLast? = some last) :
    ∀ q ∈ es, q.1 ≤ last.1 := by
  intro q hq
  by_cases heq : q = last
  · rw [heq]
  · have hlastmem : last ∈ es := mem_of_getLast? hl
    have hdiff : q.2 ≠ last.2 := by
      have hsym : Symmetric (fun p q : Nat × String => p.2 ≠ q.2) :=
        fun a b hab => fun h => hab h.symm
      exact List.Pairwise.forall hsym hne2 hq hlastmem heq
    rcases strLtS_total q.2 last.2 with he | hlt | hgt
    · exact absurd he hdiff
    · exact Nat.le_of_lt (hP q hq last hlastmem hlt)
    · rcases pairwise_getLast_le hI1 hl q hq with rfl | hle
      · rfl
      · have hle' : strLtS last.2 q.2 = false := hle
        rw [hgt] at hle'
        exact Bool.noConfusion hle'

theorem insertPos_classify {es : List (Nat × String)} {m : String}
    (hI1 : es.Pairwise leM)
    (hne2 : es.Pairwise (fun p q => p.2 ≠ q.2)) (hP : entP es)
    (_hfresh : ∀ p ∈ es, p.2 ≠ m) :
    (∀ q ∈ es, strLtS q.2 m = true →
      q.1 < insert_row_index_for_month es m) ∧
    (∀ q ∈ es, strLtS m q.2 = true →
      insert_row_index_for_month es m ≤ q.1) := by
  cases hf : es.find? (fun p => strLtS m p.2) with
  | some p =>
    have hpos_eq : insert_row_index_for_month es m = p.1 := by
      unfold insert_row_index_for_month
      rw [hf]
    have hp : strLtS m p.2 = true := by
      have := List.find?_some hf
      simpa using this
    obtain ⟨A, B, heq, hA⟩ := find?_decomp hf
    have hsplit := List.pairwise_append.mp (heq ▸ hI1)
    have hpB : ∀ b ∈ B, leM p b := (List.pairwise_cons.mp hsplit.2.1).1
    have hsplit2 := List.pairwise_append.mp (heq ▸ hne2)
    have hpB2 : ∀ b ∈ B, p.2 ≠ b.2 := (List.pairwise_cons.mp hsplit2.2.1).1
    have hmemA : ∀ q ∈ A, q ∈ es := by
      intro q hq
      rw [heq]
      exact List.mem_append.mpr (Or.inl hq)
    have hmemB : ∀ q ∈ B, q ∈ es := by
      intro q hq
      rw [heq]
      exact List.mem_append.mpr (Or.inr (List.mem_cons_of_mem p hq))
    have hpmem : p ∈ es := by
      rw [heq]
      exact List.mem_append.mpr (Or.inr (List.mem_cons_self p B))
    constructor
    · intro q hq hlt
      rw [hpos_eq]
      have hq' : q ∈ A ∨ q = p ∨ q ∈ B := by
        rw [heq] at hq
        rcases List.mem_append.mp hq with h | h
        · exact Or.inl h
        · rcases List.mem_cons.mp h with h | h
          · exact Or.inr (Or.inl h)
          · exact Or.inr (Or.inr h)
      rcases hq' with hqA | rfl | hqB
      · exact hP q hq p hpmem (strLtS_trans hlt hp)
      · exact (strLtS_asymm hlt hp).elim
      · have h1 : strLtS q.2 p.2 = true := strLtS_trans hlt hp
        have h2 : strLtS q.2 p.2 = false := hpB q hqB
        rw [h1] at h2
        exact Bool.noConfusion h2
    · intro q hq hlt
      rw [hpos_eq]
      have hq' : q ∈ A ∨ q = p ∨ q ∈ B := by
        rw [heq] at hq
        rcases List.mem_append.mp hq with h | h
        · exact Or.inl h
        · rcases List.mem_cons.mp h with h | h
          · exact Or.inr (Or.inl h)
          · exact Or.inr (Or.inr h)
      rcases hq' with hqA | rfl | hqB
      · have := hA q hqA
        rw [hlt] at this
        exact Bool.noConfusion this
      · exact Nat.le_refl _
      · have hne3 : p.2 ≠ q.2 := hpB2 q hqB
        rcases strLtS_total p.2 q.2 with he | hplt | hqlt
        · exact absurd he hne3
        · exact Nat.le_of_lt (hP p hpmem q (hmemB q hqB) hplt)
        · have hc : strLtS q.2 p.2 = false := hpB q hqB
          rw [hqlt] at hc
          exact Bool.noConfusion hc
  | none =>
    have hnone : ∀ q ∈ es, strLtS m q.2 = false := by
      intro q hq
      have := List.find?_eq_none.mp hf q hq
      simpa using this
    constructor
    · intro q hq hlt
      unfold insert_row_index_for_month
      rw [hf]
      cases hl : es.getLast? with
      | some last =>
        show q.1 < last.1 + 1
        have := rows_le_getLast hI1 hne2 hP hl q hq
        omega
      | none =>
        rw [List.getLast?_eq_none_iff] at hl
        rw [hl] at hq
        exact absurd hq (List.not_mem_nil q)
    · intro q hq hlt
      have := hnone q hq
      rw [hlt] at this
      exact Bool.noConfusion this

theorem shiftEntry_mono {pos : Nat} {p q : Nat × String} (h : p.1 < q.1) :
    (shiftEntry pos p).1 < (shiftEntry pos q).1 := by
  unfold shiftEntry
  by_cases h1 : pos ≤ p.1 <;> by_cases h2 : pos ≤ q.1 <;>
    simp [h1, h2] <;> omega

theorem shiftEntry_eq_of_lt {pos : Nat} {p : Nat × String} (h : p.1 < pos) :
    shiftEntry pos p = p := by
  unfold shiftEntry
  rw [if_neg (by omega)]

theorem mem_step_es {es : List (Nat × String)} {pos : Nat} {m : String}
    {x : Nat × String}
    (hx : x ∈ sortByMonth ((es.map (shiftEntry pos)) ++ [(pos, m)])) :
    (∃ q ∈ es, x = shiftEntry pos q) ∨ x = (pos, m) := by
  have := (sortByMonth_perm _).mem_iff.mp hx
  rcases List.mem_append.mp this with h | h
  · obtain ⟨q, hq, hqe⟩ := List.mem_map.mp h
    exact Or.inl ⟨q, hq, hqe.symm⟩
  · rw [List.mem_singleton] at h
    exact Or.inr h

theorem step_es_invariants {es : List (Nat × String)} {m : String} {pos : Nat}
    (hclass1 : ∀ q ∈ es, strLtS q.2 m = true → q.1 < pos)
    (hclass2 : ∀ q ∈ es, strLtS m q.2 = true → pos ≤ q.1)
    (hne2 : es.Pairwise (fun p q => p.2 ≠ q.2))
    (hP : entP es)
    (hfresh : ∀ p ∈ es, p.2 ≠ m) :
    (sortByMonth ((es.map (shiftEntry pos)) ++ [(pos, m)])).Pairwise leM ∧
    (sortByMonth ((es.map (shiftEntry pos)) ++ [(pos, m)])).Pairwise
        (fun p q => p.2 ≠ q.2) ∧
    entP (sortByMonth ((es.map (shiftEntry pos)) ++ [(pos, m)])) ∧
    (∀ m', m' ≠ m → (∀ p ∈ es, p.2 ≠ m') →
      ∀ p ∈ sortByMonth ((es.map (shiftEntry pos)) ++ [(pos, m)]),
        p.2 ≠ m') := by
  have hsym : Symmetric (fun p q : Nat × String => p.2 ≠ q.2) :=
    fun a b h => fun e => h e.symm
  have hperm := sortByMonth_perm ((es.map (shiftEntry pos)) ++ [(pos, m)])
  refine ⟨sortByMonth_sorted _, ?_, ?_, ?_⟩
  · rw [hperm.pairwise_iff (fun h e => h e.symm)]
    rw [List.pairwise_append]
    refine ⟨?_, List.pairwise_singleton _ _, ?_⟩
    · rw [List.pairwise_map]
      refine hne2.imp ?_
      intro a b h
      rw [shiftEntry_snd, shiftEntry_snd]
      exact h
    · intro a ha b hb
      obtain ⟨q, hq, rfl⟩ := List.mem_map.mp ha
      rw [List.mem_singleton] at hb
      subst hb
      rw [shiftEntry_snd]
      exact hfresh q hq
  · apply entP_perm hperm.symm
    intro p hp q hq hlt
    rcases List.mem_append.mp hp with hpm | hps
    · obtain ⟨a, ha, rfl⟩ := List.mem_map.mp hpm
      rcases List.mem_append.mp hq with hqm | hqs
      · obtain ⟨b, hb, rfl⟩ := List.mem_map.mp hqm
        rw [shiftEntry_snd, shiftEntry_snd] at hlt
        exact shiftEntry_mono (hP a ha b hb hlt)
      · rw [List.mem_singleton] at hqs
        subst hqs
        rw [shiftEntry_snd] at hlt
        have hlt2 := hclass1 a ha hlt
        rw [shiftEntry_eq_of_lt hlt2]
        exact hlt2
    · rw [List.mem_singleton] at hps
      subst hps
      rcases List.mem_append.mp hq with hqm | hqs
      · obtain ⟨b, hb, rfl⟩ := List.mem_map.mp hqm
        rw [shiftEntry_snd] at hlt
        have hge := hclass2 b hb hlt
        show pos < (shiftEntry pos b).1
        unfold shiftEntry
        rw [if_pos hge]
        show pos < b.1 + 1
        omega
      · rw [List.mem_singleton] at hqs
        subst hqs
        rw [strLtS_irrefl] at hlt
        exact Bool.noConfusion hlt
  · intro m' hm' hold p hp
    rcases mem_step_es hp with ⟨q, hq, rfl⟩ | rfl
    · rw [shiftEntry_snd]
      exact hold q hq
    · exact fun h => hm' h.symm

theorem ensureLoop_entP : ∀ (ms : List String) (col : List String)
    (es : List (Nat × String)),
    ms.Nodup →
    (∀ m' ∈ ms, ∀ p ∈ es, p.2 ≠ m') →
    es.Pairwise leM →
    es.Pairwise (fun p q => p.2 ≠ q.2) →
    entP es →
    entP (ensureLoop col es ms).2
  | [], _, _, _, _, _, _, hP => hP
  | m :: rest, col, es, hnodup, hfreshAll, hI1, hne2, hP => by
    have hfresh := hfreshAll m (List.mem_cons_self m rest)
    have hclass := insertPos_classify hI1 hne2 hP hfresh
    obtain ⟨hI1', hne2', hP', hpresv⟩ :=
      step_es_invariants hclass.1 hclass.2 hne2 hP hfresh
    simp only [ensureLoop]
    apply ensureLoop_entP rest _ _ (List.nodup_cons.mp hnodup).2 ?_ hI1'
      hne2' hP'
    intro m' hm'
    have hmnotin : m ∉ rest := (List.nodup_cons.mp hnodup).1
    have hm'ne : m' ≠ m := fun h => hmnotin (h ▸ hm')
    exact hpresv m' hm'ne (hfreshAll m' (List.mem_cons_of_mem m hm'))

theorem lookup_build_mem {col : List String} {k : String} {r : Nat}
    (h : dictLookup (build_month_row_index col) k = some r) :
    (r, k) ∈ collectExisting col := by
  rw [dictLookup_build] at h
  exact mem_rowsFor.mp (mem_of_getLast? h)

/-- C5 counterexample, in two parts.  First, with an out-of-order
pre-existing sheet (`2025-03` at row 2, `2025-01` at row 3) the returned
index keeps the inversion even though both cells are recognized months.
Second, even on a sorted sheet a non-canonical target month string
(`12/12/2025`) is written as `12/12/2025-01`, which parses as `2025-12`
and lands before the existing `2025-11` row. -/
theorem claim_C5_counterexample :
    (dictLookup (ensure_month_rows ["Luna", "2025-03-01", "2025-01-01"]
        ["2025-03"]).2 "2025-01" = some 3 ∧
      dictLookup (ensure_month_rows ["Luna", "2025-03-01", "2025-01-01"]
        ["2025-03"]).2 "2025-03" = some 2 ∧
      strLtS "2025-01" "2025-03" = true ∧ ¬ (3 < 2)) ∧
    (dictLookup (ensure_month_rows ["Luna", "2025-11-01"]
        ["12/12/2025"]).2 "2025-11" = some 3 ∧
      dictLookup (ensure_month_rows ["Luna", "2025-11-01"]
        ["12/12/2025"]).2 "2025-12" = some 2 ∧
      strLtS "2025-11" "2025-12" = true ∧ ¬ (3 < 2)) := by
  refine ⟨⟨by decide, by decide, by decide, by decide⟩,
    ⟨by decide, by decide, by decide, by decide⟩⟩

/-- C5 (amended): provided the months recognized in the initial column
appear in strictly increasing order by row, and every target month is a
canonical MonthKey string, then after `ensure_month_rows` completes, any
two recognized months `m1 < m2` of the returned index satisfy
`row(m1) < row(m2)`. -/
theorem claim_C5_order_stability (col : List String) (months : List String)
    (hsorted : (collectExisting col).Pairwise
      (fun p q => strLtS p.2 q.2 = true))
    (hcanon : ∀ m ∈ months, isMonthKeyStr m = true) :
    ∀ m1 m2 r1 r2,
      dictLookup (ensure_month_rows col months).2 m1 = some r1 →
      dictLookup (ensure_month_rows col months).2 m2 = some r2 →
      strLtS m1 m2 = true → r1 < r2 := by
  intro m1 m2 r1 r2 h1 h2 hlt
  have hrows := collectAux_rows_pairwise (col.drop 1) 2
  have hP0 : entP (collectExisting col) := entP_of_sorted hsorted hrows
  have hI1_0 : (collectExisting col).Pairwise leM := by
    refine hsorted.imp ?_
    intro a b h
    show strLtS b.2 a.2 = false
    by_contra hc
    rw [Bool.not_eq_false] at hc
    exact strLtS_asymm h hc
  have hne2_0 : (collectExisting col).Pairwise (fun p q => p.2 ≠ q.2) := by
    refine hsorted.imp ?_
    intro a b h heq
    rw [heq, strLtS_irrefl] at h
    exact Bool.noConfusion h
  by_cases hne : months.isEmpty = true
  · rw [ensure_eq_empty hne] at h1 h2
    exact hP0 _ (lookup_build_mem h1) _ (lookup_build_mem h2) hlt
  · have hne' : months.isEmpty = false := by
      cases h : months.isEmpty
      · rfl
      · exact absurd h hne
    by_cases hmiss : (missingOf col months).isEmpty = true
    · rw [ensure_eq_nomissing hne' hmiss] at h1 h2
      exact hP0 _ (lookup_build_mem h1) _ (lookup_build_mem h2) hlt
    · have hmiss' : (missingOf col months).isEmpty = false := by
        cases h : (missingOf col months).isEmpty
        · rfl
        · exact absurd h hmiss
      rw [ensure_eq_loop hne' hmiss'] at h1 h2
      have hmem1 := lookup_build_mem h1
      have hmem2 := lookup_build_mem h2
      have hinv := ensureLoop_invariant (missingOf col months) col
        (sortByMonth (collectExisting col)) (missingOf_canon hcanon)
        (es0_rows col) (sortByMonth_perm _)
      have hin1 := hinv.1.mem_iff.mpr hmem1
      have hin2 := hinv.1.mem_iff.mpr hmem2
      have hfreshAll : ∀ m' ∈ missingOf col months,
          ∀ p ∈ sortByMonth (collectExisting col), p.2 ≠ m' := by
        intro m' hm' p hp heq
        unfold missingOf at hm'
        rw [List.mem_filter] at hm'
        have hany := hm'.2
        simp only [Bool.not_eq_true'] at hany
        have hpmem := (sortByMonth_perm _).mem_iff.mp hp
        have hcontra : (collectExisting col).any (fun p => p.2 = m') =
            true := List.any_eq_true.mpr ⟨p, hpmem, by simp [heq]⟩
        rw [hany] at hcontra
        exact Bool.noConfusion hcontra
      have hP_final := ensureLoop_entP (missingOf col months) col
        (sortByMonth (collectExisting col))
        ((sortedDedup_nodup months).filter _) hfreshAll
        (sortByMonth_sorted _)
        (((sortByMonth_perm (collectExisting col)).pairwise_iff
          (fun h e => h e.symm)).mpr hne2_0)
        (entP_perm (sortByMonth_perm _).symm hP0)
      exact hP_final _ hin1 _ hin2 hlt

/-- Witness for C5 on a sorted sheet with one canonical missing month. -/
theorem claim_C5_witness : (2 : Nat) < 4 :=
  claim_C5_order_stability ["Luna", "2025-01-01", "2025-03-01"] ["2025-02"]
    (by decide) (by decide) "2025-01" "2025-03" 2 4 (by decide) (by decide)
    (by decide)

end CalcProc
